import Mathlib

/-!
# tiler: tile geometry, feature classification and path assembly

A shallow embedding of `main.go`.

* Go `float64` arithmetic is modelled by exact arithmetic over `ℝ`
  (`math.Sinh`, `math.Atan`, `math.Log`, ... become the real functions).
* Go `int` is `Int`; where the source adds to an `int`, the sum wraps around at
  64 bits (`wrap64`).
* A Go `map[string]string` is a function `String → Option String`, `none` for a
  key the map does not hold;
  the "comma ok" lookup `v, ok := m[k]` is application.
* A `canvas.Path` is the sequence of calls issued on it (`MoveTo`, `LineTo`,
  `Close`); `Append` concatenates the sequences.
* What a path draws is read off its calls as pen movements (`segments`): a
  `LineTo` at the pen position draws nothing.
* The data source is a parameter (`fetch`); an error of `osmapi.Map` makes `draw`
  panic.
* The canvas is the sequence of `SetFillColor` and `DrawPath` calls issued on it;
  the constants of the styling (`dimension`, stroke widths) are rationals.
-/

namespace Tiler

/-! ## Feature classifier (`draw`, lines 185-209) -/

/-- The tag mapping of a feature, `map[string]string`. -/
abbrev Tags := String → Option String

/-- Map literal: the mapping holding the listed entries (first entry of a key wins). -/
def tagsOf (l : List (String × String)) : Tags := fun k => l.lookup k

/-- The category chosen by the `if`/`else if` chain of `draw` (lines 185-209).
`none` is the `continue` that drops the feature. -/
def classify (tags : Tags) : Option String :=
  match tags "highway" with
  | some hw =>
    if hw ≠ "primary" ∧ hw ≠ "secondary" ∧ hw ≠ "unclassified" ∧ hw ≠ "residential"
        ∧ hw ≠ "pedestrian" then
      none
    else
      let hw := if hw = "unclassified" then "residential" else hw
      some ("route_" ++ hw)
  | none =>
    if tags "man_made" = some "bridge" then
      some "route_residential"
    else if (tags "natural").isSome then
      some "water"
    else if tags "railway" = some "rail" then
      some "route_transit"
    else
      match tags "leisure" with
      | some leisure =>
        if leisure ≠ "park" ∧ leisure ≠ "garden" ∧ leisure ≠ "playground" then
          none
        else
          some "park"
      | none =>
        if (tags "amenity").isSome then
          some "building"
        else
          none

/-! ### The rule table of the specification -/

/-- One rule of the table: `none` when the rule does not match, `some outcome`
when it matches (`outcome = none` is Drop). -/
abbrev Rule := Tags → Option (Option String)

/-- Rule 1: `highway` present. -/
def ruleHighway : Rule := fun tags =>
  (tags "highway").map fun v =>
    if v = "primary" ∨ v = "secondary" ∨ v = "residential" ∨ v = "pedestrian" then
      some ("route_" ++ v)
    else if v = "unclassified" then some "route_residential"
    else none

/-- Rule 2: `man_made = bridge`. -/
def ruleManMade : Rule := fun tags =>
  if tags "man_made" = some "bridge" then some (some "route_residential") else none

/-- Rule 3: `natural` present, any value. -/
def ruleNatural : Rule := fun tags =>
  (tags "natural").map fun _ => some "water"

/-- Rule 4: `railway = rail`. -/
def ruleRailway : Rule := fun tags =>
  if tags "railway" = some "rail" then some (some "route_transit") else none

/-- Rule 5: `leisure` present. -/
def ruleLeisure : Rule := fun tags =>
  (tags "leisure").map fun v =>
    if v = "park" ∨ v = "garden" ∨ v = "playground" then some "park" else none

/-- Rule 6: `amenity` present, any value. -/
def ruleAmenity : Rule := fun tags =>
  (tags "amenity").map fun _ => some "building"

/-- Rule 7: everything else is dropped. -/
def ruleElse : Rule := fun _ => some none

/-- The seven rules in precedence order. -/
def ruleTable : List Rule :=
  [ruleHighway, ruleManMade, ruleNatural, ruleRailway, ruleLeisure, ruleAmenity, ruleElse]

/-- Outcome of the first rule of `rules` that matches; Drop when none does. -/
def firstMatch (rules : List Rule) (tags : Tags) : Option String :=
  match rules with
  | [] => none
  | r :: rs =>
    match r tags with
    | some outcome => outcome
    | none => firstMatch rs tags

/-! ## Tile geometry (lines 95-135) -/

/-- The `Tile` struct. -/
structure Tile where
  Z : Int
  X : Int
  Y : Int
  Lat : ℝ
  Long : ℝ
  North : ℝ
  South : ℝ
  East : ℝ
  West : ℝ

/-- The value of a Go `int` expression whose exact value is `n`: sums wrap around at
64 bits, into `[-2^63, 2^63)`. -/
def wrap64 (n : Int) : Int := (n + 2 ^ 63) % 2 ^ 64 - 2 ^ 63

noncomputable section

/-- `math.Exp2(float64(z))` and `math.Pow(2.0, float64(z))`. -/
def exp2 (z : Int) : ℝ := (2 : ℝ) ^ (z : ℝ)

/-- `(*Tile).Deg2num`; `int(math.Floor(v))` is the integer floor of `v`. -/
def Tile.Deg2num (t : Tile) : Int × Int :=
  let x := ⌊(t.Long + 180.0) / 360.0 * exp2 t.Z⌋
  let y := ⌊(1.0 - Real.log (Real.tan (t.Lat * Real.pi / 180.0)
      + 1.0 / Real.cos (t.Lat * Real.pi / 180.0)) / Real.pi) / 2.0 * exp2 t.Z⌋
  (x, y)

/-- `(*Tile).Num2deg`. -/
def Tile.Num2deg (t : Tile) : ℝ × ℝ :=
  let n := Real.pi - 2.0 * Real.pi * (t.Y : ℝ) / exp2 t.Z
  let lat := 180.0 / Real.pi * Real.arctan (0.5 * (Real.exp n - Real.exp (-n)))
  let long := (t.X : ℝ) / exp2 t.Z * 360.0 - 180.0
  (lat, long)

/-- `tileToLat`. -/
def tileToLat (y z : Int) : ℝ :=
  let n := Real.pi - (2.0 * Real.pi * (y : ℝ)) / exp2 z
  Real.arctan (Real.sinh n) * 57.2958

/-- `tileToLon`. -/
def tileToLon (x z : Int) : ℝ :=
  (x : ℝ) / exp2 z * 360.0 - 180

/-- `(*Tile).Bounds`: the result tuple is `(north, east, south, west)`. The sums
`t.Y+1` and `t.X+1` are `int` sums. -/
def Tile.Bounds (t : Tile) : ℝ × ℝ × ℝ × ℝ :=
  let north := tileToLat t.Y t.Z
  let south := tileToLat (wrap64 (t.Y + 1)) t.Z
  let west := tileToLon t.X t.Z
  let east := tileToLon (wrap64 (t.X + 1)) t.Z
  (north, east, south, west)

/-- The assignment `t.North, t.East, t.South, t.West = t.Bounds()` of `main`
(lines 56 and 83). -/
def Tile.storeBounds (t : Tile) : Tile :=
  match t.Bounds with
  | (north, east, south, west) =>
    { t with North := north, East := east, South := south, West := west }

/-- The tile of the `TESTING` branch of `main` (line 82),
`Tile{X: 8414, Y: 5384, Z: 14}`. -/
def testTile : Tile := ⟨14, 8414, 5384, 0, 0, 0, 0, 0, 0⟩

/-- The tile whose centre is handed back to `Deg2num`: `Lat` and `Long` are set to
the middle of the bounds of `(z, x, y)`, the zoom is kept. -/
def Tile.atCentre (z x y : Int) : Tile :=
  let t : Tile := ⟨z, x, y, 0, 0, 0, 0, 0, 0⟩
  match t.Bounds with
  | (north, east, south, west) =>
    { t with Lat := (north + south) / 2, Long := (west + east) / 2 }

end

/-! ## Path assembly (`draw`, lines 170-266) -/

/-- `orb.Point`, a pair of coordinates. The assembler only copies coordinates, so
their type is a parameter (`float64` in the source). -/
abbrev Point (α : Type) := α × α

/-- The dynamic type of `f.Geometry`. `other` stands for every kind `draw` has no
type assertion for (`orb.MultiPoint`, `orb.MultiLineString`, `orb.Ring`,
`orb.Collection`, `orb.Bound`, `nil`). -/
inductive Geometry (α : Type) where
  | point (p : Point α)
  | lineString (g : List (Point α))
  | polygon (g : List (List (Point α)))
  | multiPolygon (g : List (List (List (Point α))))
  | other (kind : String)
  deriving DecidableEq, Repr

/-- One call on a `canvas.Path`. -/
inductive PathCmd (α : Type) where
  | moveTo (x y : α)
  | lineTo (x y : α)
  | close
  deriving DecidableEq, Repr

/-- A `canvas.Path`: the calls issued on it, in order. -/
abbrev Path (α : Type) := List (PathCmd α)

/-- A feature of the collection: `tags` is the result of the type assertion
`f.Properties["tags"].(map[string]string)`, `none` when it fails. -/
structure Feature (α : Type) where
  tags : Option Tags
  geometry : Geometry α

/-- The state of the feature loop: the maps `lines` and `rings`, and the values
printed after "unsupported geometry:". -/
structure Acc (α : Type) where
  lines : String → Option (Path α)
  rings : String → Option (Path α)
  reports : List (Geometry α)

/-- The state before the loop: both maps empty, nothing printed. -/
def Acc.empty {α : Type} : Acc α := ⟨fun _ => none, fun _ => none, []⟩

/-- `p.MoveTo(g[0][0], g[0][1])` followed by `p.LineTo(point[0], point[1])` for
every `point` of `g` (lines 212-216, 228-232, 247-251). The callers test the
length first, so `g[0]` exists. -/
def vertexPath {α : Type} (g : List (Point α)) : Path α :=
  match g with
  | [] => []
  | p :: _ => PathCmd.moveTo p.1 p.2 :: g.map fun q => PathCmd.lineTo q.1 q.2

/-- The path of a ring: `vertexPath` then `p.Close()`. -/
def ringPath {α : Type} (ring : List (Point α)) : Path α :=
  vertexPath ring ++ [PathCmd.close]

/-- The update `if _, ok := m[category]; !ok { m[category] = p } else
{ m[category] = m[category].Append(p) }`. -/
def appendTo {α : Type} (m : String → Option (Path α)) (category : String) (p : Path α) :
    String → Option (Path α) :=
  fun k =>
    if k = category then
      match m category with
      | none => some p
      | some q => some (q ++ p)
    else m k

/-- The loop over the rings of one polygon (lines 223-239, 242-258). -/
def addRings {α : Type} (rings : String → Option (Path α)) (category : String)
    (g : List (List (Point α))) : String → Option (Path α) :=
  g.foldl (fun m ring => if ring.length = 0 then m else appendTo m category (ringPath ring))
    rings

/-- The loop over the polygons of a multi-polygon (lines 241-259). -/
def addPolygons {α : Type} (rings : String → Option (Path α)) (category : String)
    (g : List (List (List (Point α)))) : String → Option (Path α) :=
  g.foldl (fun m poly => addRings m category poly) rings

/-- The geometry dispatch of `draw` (lines 211-263) for a feature of category
`category`. A line string that fails `1 < len(g)` fails every later type
assertion as well and reaches the final `else`. -/
def assemble {α : Type} (acc : Acc α) (category : String) (geometry : Geometry α) : Acc α :=
  match geometry with
  | .lineString g =>
    if 1 < g.length then
      { acc with lines := appendTo acc.lines category (vertexPath g) }
    else
      { acc with reports := acc.reports ++ [geometry] }
  | .polygon g => { acc with rings := addRings acc.rings category g }
  | .multiPolygon g => { acc with rings := addPolygons acc.rings category g }
  | .point _ => acc
  | .other _ => { acc with reports := acc.reports ++ [geometry] }

/-- The body of the loop over `fc.Features` (lines 183-264). -/
def drawFeature {α : Type} (acc : Acc α) (f : Feature α) : Acc α :=
  match f.tags with
  | none => acc
  | some tags =>
    match classify tags with
    | none => acc
    | some category => assemble acc category f.geometry

/-- The loop over the features of both halves (lines 172-266). -/
def drawFeatures {α : Type} (fs : List (Feature α)) : Acc α :=
  fs.foldl drawFeature Acc.empty

/-- The number of `LineTo` calls of a path. -/
def lineToCount {α : Type} (p : Path α) : Nat :=
  p.countP fun c => match c with
    | .lineTo _ _ => true
    | _ => false

/-- The number of `MoveTo` calls of a path. -/
def moveToCount {α : Type} (p : Path α) : Nat :=
  p.countP fun c => match c with
    | .moveTo _ _ => true
    | _ => false

/-- The number of `Close` calls of a path. -/
def closeCount {α : Type} (p : Path α) : Nat :=
  p.countP fun c => match c with
    | .close => true
    | _ => false

/-- The open path as the specification words it: move to the first vertex, line
to each subsequent vertex. -/
def specOpenPath {α : Type} (g : List (Point α)) : Path α :=
  match g with
  | [] => []
  | p :: rest => PathCmd.moveTo p.1 p.2 :: rest.map fun q => PathCmd.lineTo q.1 q.2

/-- Modelled from the spec: what a path draws, the canvas library not being part of
the repository. A path is read as pen movements: `MoveTo` puts the pen at a point
and starts a sub-path there, `LineTo` draws the segment from the pen position to a
point, and draws nothing when the pen is already at that point, `Close` draws the
segment back to the start of the sub-path. `pen` is the pen position and `start`
the start of the current sub-path; a `LineTo` or `Close` without a pen position,
which `draw` never issues, only places the pen. -/
def segmentsFrom {α : Type} [DecidableEq α] (pen start : Option (Point α)) :
    Path α → List (Point α × Point α)
  | [] => []
  | .moveTo x y :: rest => segmentsFrom (some (x, y)) (some (x, y)) rest
  | .lineTo x y :: rest =>
    match pen with
    | none => segmentsFrom (some (x, y)) (some (x, y)) rest
    | some p =>
      if p = (x, y) then segmentsFrom pen start rest
      else (p, (x, y)) :: segmentsFrom (some (x, y)) start rest
  | .close :: rest =>
    match pen, start with
    | some p, some s =>
      if p = s then segmentsFrom (some s) start rest
      else (p, s) :: segmentsFrom (some s) start rest
    | _, _ => segmentsFrom pen start rest

/-- The segments a path draws, from an empty canvas path. -/
def segments {α : Type} [DecidableEq α] (p : Path α) : List (Point α × Point α) :=
  segmentsFrom none none p

/-- The pairs of consecutive vertices of a line string: `n - 1` pairs for `n`
vertices. -/
def consecutive {α : Type} (g : List (Point α)) : List (Point α × Point α) :=
  g.zip g.tail

/-- The closed sub-paths the specification asks of a polygon: one per non-empty
ring, in ring order. -/
def specRingPaths {α : Type} (g : List (List (Point α))) : List (Path α) :=
  (g.filter fun ring => !ring.isEmpty).map fun ring =>
    match ring with
    | [] => []
    | p :: _ =>
      [PathCmd.moveTo p.1 p.2] ++ (ring.map fun q => PathCmd.lineTo q.1 q.2) ++ [PathCmd.close]

/-! ## Compositor (`draw`, lines 156-168 and 268-291) -/

/-- `color.RGBA`. -/
structure RGBA where
  R : Nat
  G : Nat
  B : Nat
  A : Nat
  deriving DecidableEq, Repr

/-- The entries of the map literal `categories` (lines 156-165). -/
def categoriesTable : List (String × RGBA) :=
  [("route_primary", ⟨248, 201, 103, 255⟩),
   ("route_secondary", ⟨253, 252, 248, 255⟩),
   ("route_residential", ⟨245, 241, 230, 255⟩),
   ("route_pedestrian", ⟨245, 241, 230, 255⟩),
   ("route_transit", ⟨223, 210, 174, 255⟩),
   ("water", ⟨185, 211, 194, 255⟩),
   ("park", ⟨165, 176, 118, 255⟩),
   ("building", ⟨201, 178, 166, 255⟩)]

/-- The lookup `categories[cat]`: a missing key gives the zero value. -/
def categories (cat : String) : RGBA :=
  (categoriesTable.lookup cat).getD ⟨0, 0, 0, 0⟩

/-- The slice `catOrder` (line 272). -/
def catOrder : List String :=
  ["water", "route_pedestrian", "route_residential", "route_secondary", "route_primary",
   "route_transit", "park", "building"]

/-- The `dimension` variable (line 28). -/
def dimension : ℚ := 256.0

/-- The cappers of the canvas library; `draw` uses `canvas.RoundCapper`. -/
inductive Capper where
  | round
  | butt
  | square
  deriving DecidableEq, Repr

/-- The joiners of the canvas library; `draw` uses `canvas.RoundJoiner`. -/
inductive Joiner where
  | round
  | bevel
  | miter
  deriving DecidableEq, Repr

/-- The path argument of a `DrawPath` call: `canvas.Rectangle(w, h)`, an accumulated
path as it is, or `p.Stroke(width, capper, joiner)`. -/
inductive Drawn (α : Type) where
  | rectangle (w h : ℚ)
  | plain (p : Path α)
  | stroke (p : Path α) (width : ℚ) (capper : Capper) (joiner : Joiner)
  deriving DecidableEq, Repr

/-- A call on the canvas: `c.SetFillColor(col)` or `c.DrawPath(x, y, p)`. -/
inductive CanvasOp (α : Type) where
  | setFillColor (col : RGBA)
  | drawPath (x y : ℚ) (p : Drawn α)
  deriving DecidableEq, Repr

/-- The background (lines 167-168). -/
def background {α : Type} : List (CanvasOp α) :=
  [.setFillColor ⟨235, 227, 205, 255⟩, .drawPath 0.0 0.0 (.rectangle dimension dimension)]

/-- The stroke width of a category (lines 276-285). -/
def strokeWidth (cat : String) : ℚ :=
  let width : ℚ := 0.00015
  if cat = "route_residential" then width / 1.5
  else if cat = "route_primary" then width * 1.5
  else if cat = "route_pedestrian" then width / 2.5
  else if cat = "route_transit" then width / 8.0
  else width

/-- The body of the loop over `catOrder` (lines 274-290). -/
def drawCategory {α : Type} (lines rings : String → Option (Path α)) (cat : String) :
    List (CanvasOp α) :=
  [CanvasOp.setFillColor (categories cat)]
  ++ (match lines cat with
      | some p =>
        [CanvasOp.drawPath 0.0 0.0 (.stroke p (strokeWidth cat) Capper.round Joiner.round)]
      | none => [])
  ++ (match rings cat with
      | some p => [CanvasOp.drawPath 0.0 0.0 (.plain p)]
      | none => [])

/-- The loop over `catOrder` (lines 273-291). -/
def composite {α : Type} (lines rings : String → Option (Path α)) : List (CanvasOp α) :=
  catOrder.flatMap (drawCategory lines rings)

/-- The canvas calls of `draw`: the background, then the categories. -/
def canvasOps {α : Type} (acc : Acc α) : List (CanvasOp α) :=
  background ++ composite acc.lines acc.rings

/-- What the canvas paints: each `DrawPath` with the fill colour current at the
call. -/
def painted {α : Type} (col : RGBA) (ops : List (CanvasOp α)) : List (RGBA × Drawn α) :=
  match ops with
  | [] => []
  | .setFillColor c :: rest => painted c rest
  | .drawPath _ _ p :: rest => (col, p) :: painted col rest

/-- The draw calls the specification asks for one category: the stroked line path
if there is one, then the ring path if there is one. -/
def specCalls {α : Type} (lines rings : String → Option (Path α)) (cat : String) :
    List (RGBA × Drawn α) :=
  ((lines cat).toList.map fun p =>
      (categories cat, Drawn.stroke p (strokeWidth cat) Capper.round Joiner.round))
  ++ ((rings cat).toList.map fun p => (categories cat, Drawn.plain p))

/-! ## Sub-paths of an accumulator -/

/-- The accumulator made of the sub-paths `ps` appended in order: absent when there
is none. -/
def ofParts {α : Type} (ps : List (Path α)) : Option (Path α) :=
  match ps with
  | [] => none
  | _ :: _ => some ps.flatten

/-- The sub-paths a feature adds to the line accumulator of category `c`: its
vertex path when it is a line string of category `c` with at least two vertices. -/
def lineParts {α : Type} (f : Feature α) (c : String) : List (Path α) :=
  match f.tags with
  | none => []
  | some tags =>
    if classify tags = some c then
      match f.geometry with
      | .lineString g => if 1 < g.length then [vertexPath g] else []
      | _ => []
    else []

/-- The sub-paths a feature adds to the ring accumulator of category `c`: the
closed paths of its non-empty rings when it is a polygon or multi-polygon of
category `c`. -/
def ringParts {α : Type} (f : Feature α) (c : String) : List (Path α) :=
  match f.tags with
  | none => []
  | some tags =>
    if classify tags = some c then
      match f.geometry with
      | .polygon g => specRingPaths g
      | .multiPolygon g => specRingPaths g.flatten
      | _ => []
    else []

/-- Cuts a path before each `MoveTo`: the commands before the first `MoveTo`, and
the sub-paths that start at a `MoveTo`. -/
def cutAtMoves {α : Type} : Path α → Path α × List (Path α)
  | [] => ([], [])
  | cmd :: rest =>
    match cmd with
    | .moveTo _ _ => ([], (cmd :: (cutAtMoves rest).1) :: (cutAtMoves rest).2)
    | _ => (cmd :: (cutAtMoves rest).1, (cutAtMoves rest).2)

/-- The sub-paths of a path: its maximal runs of commands that start at a
`MoveTo` (and the run before the first `MoveTo`, when there is one). -/
def subPaths {α : Type} (p : Path α) : List (Path α) :=
  match (cutAtMoves p).1 with
  | [] => (cutAtMoves p).2
  | c :: cs => (c :: cs) :: (cutAtMoves p).2

/-- The sub-paths held by an accumulator entry. -/
def subPathsOf {α : Type} (o : Option (Path α)) : List (Path α) :=
  subPaths (o.getD [])

/-- Two painted paths that differ only in the order of their sub-paths: same
colour, same kind, same stroke, and sub-paths equal as multisets. -/
def SamePaint {α : Type} (a b : RGBA × Drawn α) : Prop :=
  a.1 = b.1 ∧
  match a.2, b.2 with
  | .rectangle w h, .rectangle w' h' => w = w' ∧ h = h'
  | .plain p, .plain q => (subPaths p).Perm (subPaths q)
  | .stroke p w cp j, .stroke q w' cp' j' =>
    (subPaths p).Perm (subPaths q) ∧ w = w' ∧ cp = cp' ∧ j = j'
  | _, _ => False

/-- A well-formed sub-path: one `MoveTo` followed by commands that are not
`MoveTo`. -/
def IsSubPath {α : Type} (p : Path α) : Prop :=
  ∃ x y t, p = PathCmd.moveTo x y :: t ∧ moveToCount t = 0

/-! ## Fetch and view (`draw`, lines 138-154 and 268-270) -/

/-- Modelled from the spec: `osm.Bounds`, a type of the osm library, not of the
repository. Its fields are, in order, the box (south, north, west, east) of a
data-source request. -/
structure OsmBounds where
  MinLat : ℝ
  MaxLat : ℝ
  MinLon : ℝ
  MaxLon : ℝ

/-- Modelled from the spec: `canvas.Matrix`, a type of the canvas library, not of the
repository: the affine map `(x, y) ↦ (m00 x + m01 y + m02, m10 x + m11 y + m12)` from
geographic degrees to the pixel canvas. -/
structure Matrix where
  m00 : ℝ
  m01 : ℝ
  m02 : ℝ
  m10 : ℝ
  m11 : ℝ
  m12 : ℝ

noncomputable section

/-- Modelled from the spec: `canvas.Identity`, the map that moves nothing. -/
def Matrix.Identity : Matrix := ⟨1, 0, 0, 0, 1, 0⟩

/-- Modelled from the spec: the product of two affine maps, `q` applied first. -/
def Matrix.Mul (m q : Matrix) : Matrix :=
  ⟨m.m00 * q.m00 + m.m01 * q.m10,
   m.m00 * q.m01 + m.m01 * q.m11,
   m.m00 * q.m02 + m.m01 * q.m12 + m.m02,
   m.m10 * q.m00 + m.m11 * q.m10,
   m.m10 * q.m01 + m.m11 * q.m11,
   m.m10 * q.m02 + m.m11 * q.m12 + m.m12⟩

/-- Modelled from the spec: `Translate` of the canvas library; the translation
multiplies on the right, so it applies before what `m` already does. -/
def Matrix.Translate (m : Matrix) (x y : ℝ) : Matrix :=
  m.Mul ⟨1, 0, x, 0, 1, y⟩

/-- Modelled from the spec: `Scale` of the canvas library; the scaling multiplies on
the right, so it applies before what `m` already does. -/
def Matrix.Scale (m : Matrix) (sx sy : ℝ) : Matrix :=
  m.Mul ⟨sx, 0, 0, 0, sy, 0⟩

/-- Modelled from the spec: the image of a point under the affine map. -/
def Matrix.Dot (m : Matrix) (p : ℝ × ℝ) : ℝ × ℝ :=
  (m.m00 * p.1 + m.m01 * p.2 + m.m02, m.m10 * p.1 + m.m11 * p.2 + m.m12)

/-- The western half of the bounds, the box of the first `osmapi.Map` call
(line 147). -/
def westHalf (t : Tile) : OsmBounds :=
  let xmin := t.West
  let xmax := t.East
  let ymin := t.South
  let ymax := t.North
  let xmid := xmin + (xmax - xmin) / 2.0
  ⟨ymin, ymax, xmin, xmid⟩

/-- The eastern half of the bounds, the box of the second `osmapi.Map` call
(line 151). -/
def eastHalf (t : Tile) : OsmBounds :=
  let xmin := t.West
  let xmax := t.East
  let ymin := t.South
  let ymax := t.North
  let xmid := xmin + (xmax - xmin) / 2.0
  ⟨ymin, ymax, xmid, xmax⟩

/-- The fetch of `draw` (lines 138-154). The data source is the parameter `fetch`:
`fetch i b` is the outcome of call number `i` of `osmapi.Map` on the box `b`, `none`
when it returns an error. The result is the boxes requested, in call order, and the
two responses, `none` when `draw` panicked. -/
def fetchHalves {ρ : Type} (fetch : Nat → OsmBounds → Option ρ) (t : Tile) :
    List OsmBounds × Option (ρ × ρ) :=
  match fetch 0 (westHalf t) with
  | none => ([westHalf t], none)
  | some ams0 =>
    match fetch 1 (eastHalf t) with
    | none => ([westHalf t, eastHalf t], none)
    | some ams1 => ([westHalf t, eastHalf t], some (ams0, ams1))

/-- The matrix handed to `c.SetView` (lines 268-270). -/
def view (t : Tile) : Matrix :=
  let xmin := t.West
  let xmax := t.East
  let ymin := t.South
  let ymax := t.North
  let xscale := (dimension : ℝ) / (xmax - xmin)
  let yscale := (dimension : ℝ) / (ymax - ymin)
  ((Matrix.Identity.Translate 0.0 0.0).Scale xscale yscale).Translate (-xmin) (-ymin)

/-- The tile whose north-west corner is handed back to `Deg2num`: `Lat` and `Long`
are set to the result of `Num2deg` on `(z, x, y)`, the zoom is kept. -/
def Tile.atCorner (z x y : Int) : Tile :=
  let t : Tile := ⟨z, x, y, 0, 0, 0, 0, 0, 0⟩
  match t.Num2deg with
  | (lat, long) => { t with Lat := lat, Long := long }

end

/-! ## Theorems -/

/-! ### Tile geometry -/

theorem exp2_pos (z : Int) : 0 < exp2 z :=
  Real.rpow_pos_of_pos (by norm_num) _

theorem exp2_eq_zpow (z : Int) : exp2 z = (2 : ℝ) ^ z := by
  unfold exp2
  exact Real.rpow_intCast 2 z

/-- The Mercator ordinate of a row boundary decreases with the row. -/
theorem ordinate_strictAnti (z : Int) {y y' : Int} (h : y < y') :
    Real.pi - (2.0 * Real.pi * (y' : ℝ)) / exp2 z
      < Real.pi - (2.0 * Real.pi * (y : ℝ)) / exp2 z := by
  have hz := exp2_pos z
  have hy : (y : ℝ) < (y' : ℝ) := by exact_mod_cast h
  have hpi := Real.pi_pos
  have : (2.0 * Real.pi * (y : ℝ)) / exp2 z < (2.0 * Real.pi * (y' : ℝ)) / exp2 z := by
    apply div_lt_div_of_pos_right _ hz
    nlinarith
  linarith

theorem tileToLat_strictAnti (z : Int) {y y' : Int} (h : y < y') :
    tileToLat y' z < tileToLat y z := by
  unfold tileToLat
  have := Real.arctan_strictMono (Real.sinh_strictMono (ordinate_strictAnti z h))
  simp only
  linarith

theorem tileToLon_strictMono (z : Int) {x x' : Int} (h : x < x') :
    tileToLon x z < tileToLon x' z := by
  unfold tileToLon
  have hz := exp2_pos z
  have hx : (x : ℝ) < (x' : ℝ) := by exact_mod_cast h
  have : (x : ℝ) / exp2 z < (x' : ℝ) / exp2 z := div_lt_div_of_pos_right hx hz
  linarith

/-- An `int` sum that stays inside `[-2^63, 2^63)` is the exact sum. -/
theorem wrap64_of_mem {n : Int} (h₁ : -2 ^ 63 ≤ n) (h₂ : n < 2 ^ 63) : wrap64 n = n := by
  unfold wrap64
  omega

/-- The successor of the largest `int` is the smallest `int`. -/
theorem wrap64_succ_max : wrap64 (2 ^ 63 - 1 + 1) = -2 ^ 63 := by
  unfold wrap64
  omega

theorem wrap64_succ {n : Int} (h₁ : -2 ^ 63 ≤ n) (h₂ : n < 2 ^ 63 - 1) :
    wrap64 (n + 1) = n + 1 :=
  wrap64_of_mem (by omega) (by omega)

/-- C5: `Bounds` returns, in the order (north, east, south, west), the latitude of
rows `y` and `y+1` and the longitude of columns `x` and `x+1`, where
`tileToLon x z = x / 2^z * 360 - 180`; the caller stores each component in the
field of the same name and leaves the tile address alone. The sums `y+1` and `x+1`
are the `int` sums of the source, which are the exact sums for every row and column
other than the largest `int`. -/
theorem bounds_components (t : Tile) :
    t.Bounds = (tileToLat t.Y t.Z, tileToLon (wrap64 (t.X + 1)) t.Z,
                tileToLat (wrap64 (t.Y + 1)) t.Z, tileToLon t.X t.Z)
    ∧ (∀ x z : Int, tileToLon x z = (x : ℝ) / (2 : ℝ) ^ z * 360 - 180)
    ∧ t.storeBounds.North = tileToLat t.Y t.Z
    ∧ t.storeBounds.South = tileToLat (wrap64 (t.Y + 1)) t.Z
    ∧ t.storeBounds.West = tileToLon t.X t.Z
    ∧ t.storeBounds.East = tileToLon (wrap64 (t.X + 1)) t.Z
    ∧ t.storeBounds.Z = t.Z ∧ t.storeBounds.X = t.X ∧ t.storeBounds.Y = t.Y
    ∧ (-2 ^ 63 ≤ t.X → t.X < 2 ^ 63 - 1 → -2 ^ 63 ≤ t.Y → t.Y < 2 ^ 63 - 1 →
        t.Bounds = (tileToLat t.Y t.Z, tileToLon (t.X + 1) t.Z,
                    tileToLat (t.Y + 1) t.Z, tileToLon t.X t.Z)
        ∧ t.storeBounds.South = tileToLat (t.Y + 1) t.Z
        ∧ t.storeBounds.East = tileToLon (t.X + 1) t.Z) := by
  refine ⟨rfl, ?_, rfl, rfl, rfl, rfl, rfl, rfl, rfl, ?_⟩
  · intro x z
    unfold tileToLon
    rw [exp2_eq_zpow]
    norm_num
  · intro hx hx' hy hy'
    have hS : t.storeBounds.South = tileToLat (wrap64 (t.Y + 1)) t.Z := rfl
    have hE : t.storeBounds.East = tileToLon (wrap64 (t.X + 1)) t.Z := rfl
    have hB : t.Bounds = (tileToLat t.Y t.Z, tileToLon (wrap64 (t.X + 1)) t.Z,
        tileToLat (wrap64 (t.Y + 1)) t.Z, tileToLon t.X t.Z) := rfl
    rw [hB, hS, hE, wrap64_succ hx hx', wrap64_succ hy hy']
    exact ⟨rfl, rfl, rfl⟩

/-- Witness of `bounds_components`: the tile of the `TESTING` branch. -/
theorem bounds_components_witness :
    testTile.storeBounds.South = tileToLat (5384 + 1) 14
    ∧ testTile.storeBounds.East = tileToLon (8414 + 1) 14 :=
  ((bounds_components testTile).2.2.2.2.2.2.2.2.2
    (by decide) (by decide) (by decide) (by decide)).2

/-- C6, as stated, fails: at zoom 63 the row and column `2^63 - 1` lie in `[0, 2^63)`,
the sums `t.Y+1` and `t.X+1` wrap around to `-2^63`, and `Bounds` returns
north < south and east < west. -/
theorem bounds_ordered_counterexample :
    (0 : Int) ≤ 63
    ∧ (0 : Int) ≤ 2 ^ 63 - 1 ∧ (2 ^ 63 - 1 : Int) < 2 ^ (63 : ℕ)
    ∧ (Tile.mk 63 (2 ^ 63 - 1) (2 ^ 63 - 1) 0 0 0 0 0 0).Bounds.1
        < (Tile.mk 63 (2 ^ 63 - 1) (2 ^ 63 - 1) 0 0 0 0 0 0).Bounds.2.2.1
    ∧ (Tile.mk 63 (2 ^ 63 - 1) (2 ^ 63 - 1) 0 0 0 0 0 0).Bounds.2.1
        < (Tile.mk 63 (2 ^ 63 - 1) (2 ^ 63 - 1) 0 0 0 0 0 0).Bounds.2.2.2
    ∧ ¬ ((Tile.mk 63 (2 ^ 63 - 1) (2 ^ 63 - 1) 0 0 0 0 0 0).Bounds.2.2.1
          < (Tile.mk 63 (2 ^ 63 - 1) (2 ^ 63 - 1) 0 0 0 0 0 0).Bounds.1
        ∧ (Tile.mk 63 (2 ^ 63 - 1) (2 ^ 63 - 1) 0 0 0 0 0 0).Bounds.2.2.2
          < (Tile.mk 63 (2 ^ 63 - 1) (2 ^ 63 - 1) 0 0 0 0 0 0).Bounds.2.1) := by
  have hN : (Tile.mk 63 (2 ^ 63 - 1) (2 ^ 63 - 1) 0 0 0 0 0 0).Bounds.1
      = tileToLat (2 ^ 63 - 1) 63 := rfl
  have hS : (Tile.mk 63 (2 ^ 63 - 1) (2 ^ 63 - 1) 0 0 0 0 0 0).Bounds.2.2.1
      = tileToLat (wrap64 (2 ^ 63 - 1 + 1)) 63 := rfl
  have hW : (Tile.mk 63 (2 ^ 63 - 1) (2 ^ 63 - 1) 0 0 0 0 0 0).Bounds.2.2.2
      = tileToLon (2 ^ 63 - 1) 63 := rfl
  have hE : (Tile.mk 63 (2 ^ 63 - 1) (2 ^ 63 - 1) 0 0 0 0 0 0).Bounds.2.1
      = tileToLon (wrap64 (2 ^ 63 - 1 + 1)) 63 := rfl
  have hlat : tileToLat (2 ^ 63 - 1) 63 < tileToLat (-2 ^ 63) 63 :=
    tileToLat_strictAnti 63 (by decide)
  have hlon : tileToLon (-2 ^ 63) 63 < tileToLon (2 ^ 63 - 1) 63 :=
    tileToLon_strictMono 63 (by decide)
  rw [hN, hS, hW, hE, wrap64_succ_max]
  refine ⟨by decide, by decide, by decide, hlat, hlon, ?_⟩
  intro h
  exact lt_irrefl _ (h.1.trans hlat)

/-- C6, amended: for every row and column other than the largest `int`, so for every
zoom `0 ≤ z` and every column and row in `[0, 2^z)` below `2^63 - 1`, the bounds
satisfy south < north and west < east, and both divisors of the view transform,
east - west and north - south, are strictly positive. -/
theorem bounds_ordered (t : Tile)
    (hx : -2 ^ 63 ≤ t.X) (hx' : t.X < 2 ^ 63 - 1)
    (hy : -2 ^ 63 ≤ t.Y) (hy' : t.Y < 2 ^ 63 - 1) :
    t.Bounds.2.2.1 < t.Bounds.1 ∧ t.Bounds.2.2.2 < t.Bounds.2.1
    ∧ t.storeBounds.South < t.storeBounds.North
    ∧ t.storeBounds.West < t.storeBounds.East
    ∧ 0 < t.storeBounds.East - t.storeBounds.West
    ∧ 0 < t.storeBounds.North - t.storeBounds.South := by
  have hlat : tileToLat (t.Y + 1) t.Z < tileToLat t.Y t.Z :=
    tileToLat_strictAnti t.Z (by omega)
  have hlon : tileToLon t.X t.Z < tileToLon (t.X + 1) t.Z :=
    tileToLon_strictMono t.Z (by omega)
  have hN : t.storeBounds.North = tileToLat t.Y t.Z := rfl
  have hS : t.storeBounds.South = tileToLat (t.Y + 1) t.Z := by
    rw [← wrap64_succ hy hy']
    rfl
  have hW : t.storeBounds.West = tileToLon t.X t.Z := rfl
  have hE : t.storeBounds.East = tileToLon (t.X + 1) t.Z := by
    rw [← wrap64_succ hx hx']
    rfl
  have hBN : t.Bounds.1 = t.storeBounds.North := rfl
  have hBS : t.Bounds.2.2.1 = t.storeBounds.South := rfl
  have hBW : t.Bounds.2.2.2 = t.storeBounds.West := rfl
  have hBE : t.Bounds.2.1 = t.storeBounds.East := rfl
  rw [hBN, hBS, hBW, hBE, hN, hS, hW, hE]
  exact ⟨hlat, hlon, hlat, hlon, by linarith, by linarith⟩

/-- Witness of `bounds_ordered`: the tile of the `TESTING` branch. -/
theorem bounds_ordered_witness :
    testTile.storeBounds.South < testTile.storeBounds.North
    ∧ testTile.storeBounds.West < testTile.storeBounds.East :=
  have h := bounds_ordered testTile (by decide) (by decide) (by decide) (by decide)
  ⟨h.2.2.1, h.2.2.2.1⟩

/-- The bounds stored for the tile of the `TESTING` branch. -/
theorem testTile_stored :
    testTile.Bounds = (tileToLat 5384 14, tileToLon (8414 + 1) 14,
      tileToLat (5384 + 1) 14, tileToLon 8414 14)
    ∧ testTile.storeBounds.North = tileToLat 5384 14
    ∧ testTile.storeBounds.South = tileToLat (5384 + 1) 14
    ∧ testTile.storeBounds.West = tileToLon 8414 14
    ∧ testTile.storeBounds.East = tileToLon (8414 + 1) 14 := by
  have hy : wrap64 ((5384 : Int) + 1) = 5384 + 1 := wrap64_succ (by decide) (by decide)
  have hx : wrap64 ((8414 : Int) + 1) = 8414 + 1 := wrap64_succ (by decide) (by decide)
  have hB : testTile.Bounds = (tileToLat 5384 14, tileToLon (wrap64 (8414 + 1)) 14,
      tileToLat (wrap64 (5384 + 1)) 14, tileToLon 8414 14) := rfl
  have hS : testTile.storeBounds.South = tileToLat (wrap64 (5384 + 1)) 14 := rfl
  have hE : testTile.storeBounds.East = tileToLon (wrap64 (8414 + 1)) 14 := rfl
  rw [hB, hS, hE, hx, hy]
  exact ⟨rfl, rfl, rfl, rfl, rfl⟩

/-! ### Bounds of the real functions used by the tile geometry -/

theorem hasDerivAt_arctan_sub_cubic (x : ℝ) :
    HasDerivAt (fun t => Real.arctan t - (t - t ^ 3 / 3)) (x ^ 4 / (1 + x ^ 2)) x := by
  have h := (Real.hasDerivAt_arctan x).sub
    ((hasDerivAt_id x).sub ((hasDerivAt_pow 3 x).div_const 3))
  have hx : (1 + x ^ 2) ≠ 0 := by positivity
  have e : 1 / (1 + x ^ 2) - (1 - (((3 : ℕ) : ℝ) * x ^ (3 - 1)) / 3) = x ^ 4 / (1 + x ^ 2) := by
    field_simp
    ring
  rw [e] at h
  exact h

theorem hasDerivAt_quintic_sub_arctan (x : ℝ) :
    HasDerivAt (fun t => (t - t ^ 3 / 3 + t ^ 5 / 5) - Real.arctan t)
      (x ^ 6 / (1 + x ^ 2)) x := by
  have h := (((hasDerivAt_id x).sub ((hasDerivAt_pow 3 x).div_const 3)).add
    ((hasDerivAt_pow 5 x).div_const 5)).sub (Real.hasDerivAt_arctan x)
  have hx : (1 + x ^ 2) ≠ 0 := by positivity
  have e : (1 - (((3 : ℕ) : ℝ) * x ^ (3 - 1)) / 3 + (((5 : ℕ) : ℝ) * x ^ (5 - 1)) / 5)
      - 1 / (1 + x ^ 2) = x ^ 6 / (1 + x ^ 2) := by
    field_simp
    ring
  rw [e] at h
  exact h

/-- Lower Taylor bound of the arc tangent. -/
theorem cubic_le_arctan {x : ℝ} (hx : 0 ≤ x) : x - x ^ 3 / 3 ≤ Real.arctan x := by
  have hmono : MonotoneOn (fun t => Real.arctan t - (t - t ^ 3 / 3)) (Set.Ici 0) := by
    apply monotoneOn_of_deriv_nonneg (convex_Ici 0)
    · exact fun t _ => (hasDerivAt_arctan_sub_cubic t).continuousAt.continuousWithinAt
    · exact fun t _ => (hasDerivAt_arctan_sub_cubic t).differentiableAt.differentiableWithinAt
    · intro t _
      rw [(hasDerivAt_arctan_sub_cubic t).deriv]
      positivity
  have := hmono (Set.left_mem_Ici) hx hx
  simp only [Real.arctan_zero] at this
  norm_num at this
  linarith

/-- Upper Taylor bound of the arc tangent. -/
theorem arctan_le_quintic {x : ℝ} (hx : 0 ≤ x) :
    Real.arctan x ≤ x - x ^ 3 / 3 + x ^ 5 / 5 := by
  have hmono : MonotoneOn (fun t => (t - t ^ 3 / 3 + t ^ 5 / 5) - Real.arctan t)
      (Set.Ici 0) := by
    apply monotoneOn_of_deriv_nonneg (convex_Ici 0)
    · exact fun t _ => (hasDerivAt_quintic_sub_arctan t).continuousAt.continuousWithinAt
    · exact fun t _ => (hasDerivAt_quintic_sub_arctan t).differentiableAt.differentiableWithinAt
    · intro t _
      rw [(hasDerivAt_quintic_sub_arctan t).deriv]
      positivity
  have := hmono (Set.left_mem_Ici) hx hx
  simp only [Real.arctan_zero] at this
  norm_num at this
  linarith

theorem arctan_le_self_of_nonneg {x : ℝ} (hx : 0 ≤ x) : Real.arctan x ≤ x := by
  rcases hx.eq_or_lt with h | h
  · rw [← h, Real.arctan_zero]
  · have hpos : 0 < Real.arctan x := by
      rw [← Real.arctan_zero]
      exact Real.arctan_strictMono h
    have := Real.lt_tan hpos (Real.arctan_lt_pi_div_two x)
    rw [Real.tan_arctan] at this
    exact this.le

theorem hasDerivAt_arctan_sinh (x : ℝ) :
    HasDerivAt (fun t => Real.arctan (Real.sinh t)) (1 / Real.cosh x) x := by
  have h := (Real.hasDerivAt_sinh x).arctan
  have hc : 0 < Real.cosh x := Real.cosh_pos x
  have e : 1 / (1 + Real.sinh x ^ 2) * Real.cosh x = 1 / Real.cosh x := by
    rw [add_comm, ← Real.cosh_sq]
    field_simp
    ring
  rw [e] at h
  exact h

/-- Between two ordinates at or above `a₀` the latitude (in radians) grows at most
by the gap divided by a lower bound of `cosh`. -/
theorem arctan_sinh_sub_le {a₀ c : ℝ} (hc : 0 < c) (hcosh : ∀ t, a₀ < t → c ≤ Real.cosh t)
    {a b : ℝ} (ha : a₀ ≤ a) (hab : a ≤ b) :
    Real.arctan (Real.sinh b) - Real.arctan (Real.sinh a) ≤ 1 / c * (b - a) := by
  have hD : Convex ℝ (Set.Ici a₀) := convex_Ici a₀
  have hcont : ContinuousOn (fun t => Real.arctan (Real.sinh t)) (Set.Ici a₀) :=
    (Real.continuous_arctan.comp Real.continuous_sinh).continuousOn
  have hdiff : DifferentiableOn ℝ (fun t => Real.arctan (Real.sinh t)) (interior (Set.Ici a₀)) :=
    fun t _ => (hasDerivAt_arctan_sinh t).differentiableAt.differentiableWithinAt
  have hder : ∀ t ∈ interior (Set.Ici a₀),
      deriv (fun t => Real.arctan (Real.sinh t)) t ≤ 1 / c := by
    intro t ht
    rw [interior_Ici] at ht
    rw [(hasDerivAt_arctan_sinh t).deriv]
    exact one_div_le_one_div_of_le hc (hcosh t ht)
  exact hD.image_sub_le_mul_sub_of_deriv_le hcont hdiff hder a ha b (ha.trans hab) hab

theorem exp_ge_23 : (23.1 : ℝ) ≤ Real.exp 3.1415 := by
  have h1 : Real.exp 3.1415 = Real.exp 1 ^ 3 * Real.exp 0.1415 := by
    rw [← Real.exp_nat_mul, ← Real.exp_add]
    norm_num
  have h2 := Real.exp_one_gt_d9
  have h3 : (1 : ℝ) + 0.1415 + 0.1415 ^ 2 / 2 ≤ Real.exp 0.1415 :=
    Real.quadratic_le_exp_of_nonneg (by norm_num)
  have h4 : (2.7182818283 : ℝ) ^ 3 ≤ Real.exp 1 ^ 3 :=
    pow_le_pow_left₀ (by norm_num) h2.le 3
  rw [h1]
  calc (23.1 : ℝ) ≤ 2.7182818283 ^ 3 * (1 + 0.1415 + 0.1415 ^ 2 / 2) := by norm_num
    _ ≤ Real.exp 1 ^ 3 * Real.exp 0.1415 :=
      mul_le_mul h4 h3 (by norm_num) (by positivity)

theorem sinh_le_of_exp_le {x E s : ℝ} (hE : Real.exp x ≤ E) (hs : (E - 1 / E) / 2 ≤ s) :
    Real.sinh x ≤ s := by
  have he : 0 < Real.exp x := Real.exp_pos x
  have hinv : 1 / E ≤ 1 / Real.exp x := one_div_le_one_div_of_le he hE
  rw [Real.sinh_eq, Real.exp_neg, inv_eq_one_div]
  linarith

theorem le_sinh_of_le_exp {x E s : ℝ} (hE0 : 0 < E) (hE : E ≤ Real.exp x)
    (hs : s ≤ (E - 1 / E) / 2) : s ≤ Real.sinh x := by
  have hinv : 1 / Real.exp x ≤ 1 / E := one_div_le_one_div_of_le hE0 hE
  rw [Real.sinh_eq, Real.exp_neg, inv_eq_one_div]
  linarith

theorem arctan_eq_quarter_add {s : ℝ} (hs : 0 < s + 1) :
    Real.arctan s = Real.pi / 4 + Real.arctan ((s - 1) / (s + 1)) := by
  have hu : 1 * ((s - 1) / (s + 1)) < 1 := by
    rw [one_mul, div_lt_one hs]
    linarith
  have h := Real.arctan_add hu
  rw [Real.arctan_one] at h
  rw [h]
  congr 1
  have hne : s + 1 ≠ 0 := hs.ne'
  field_simp
  ring

/-- North of the latitude of row 0 the Mercator ordinate recovered by `Deg2num`
exceeds `π`. -/
theorem pi_lt_log_tan_add_sec {φ : ℝ} (hA : Real.arctan (Real.sinh Real.pi) < φ)
    (hφ : φ < Real.pi / 2) :
    Real.pi < Real.log (Real.tan φ + 1 / Real.cos φ) := by
  have hS : 0 < Real.sinh Real.pi := Real.sinh_pos_iff.mpr Real.pi_pos
  have hA0 : 0 < Real.arctan (Real.sinh Real.pi) := by
    rw [← Real.arctan_zero]
    exact Real.arctan_strictMono hS
  have htan : Real.sinh Real.pi < Real.tan φ := by
    have := Real.tan_lt_tan_of_lt_of_lt_pi_div_two
      (Real.neg_pi_div_two_lt_arctan (Real.sinh Real.pi)) hφ hA
    rwa [Real.tan_arctan] at this
  have hcosφ : 0 < Real.cos φ :=
    Real.cos_pos_of_mem_Ioo ⟨by linarith [Real.pi_pos], hφ⟩
  have hcosA : Real.cos (Real.arctan (Real.sinh Real.pi)) = 1 / Real.cosh Real.pi := by
    rw [Real.cos_arctan, add_comm, ← Real.cosh_sq, Real.sqrt_sq (Real.cosh_pos _).le]
  have hcos : Real.cos φ < 1 / Real.cosh Real.pi := by
    rw [← hcosA]
    exact Real.cos_lt_cos_of_nonneg_of_le_pi_div_two hA0.le hφ.le hA
  have hsec : Real.cosh Real.pi < 1 / Real.cos φ := by
    rw [lt_div_iff₀ hcosφ]
    have := (lt_div_iff₀ (Real.cosh_pos Real.pi)).mp hcos
    linarith [mul_comm (Real.cos φ) (Real.cosh Real.pi)]
  have hsum : Real.exp Real.pi < Real.tan φ + 1 / Real.cos φ := by
    rw [← Real.sinh_add_cosh]
    linarith
  have := Real.log_lt_log (Real.exp_pos Real.pi) hsum
  rwa [Real.log_exp] at this

/-! ### The degree constant of `tileToLat` -/

theorem arctan_sinh_pi_pos : 0 < Real.arctan (Real.sinh Real.pi) := by
  rw [← Real.arctan_zero]
  exact Real.arctan_strictMono (Real.sinh_pos_iff.mpr Real.pi_pos)

/-- The constant `57.2958` of `tileToLat` is larger than `180/π`. -/
theorem degrees_lt_const : 180 / Real.pi < (57.2958 : ℝ) := by
  rw [div_lt_iff₀ Real.pi_pos]
  have := Real.pi_gt_d6
  linarith

theorem tileToLat_zero (z : Int) :
    tileToLat 0 z = Real.arctan (Real.sinh Real.pi) * 57.2958 := by
  simp [tileToLat]

theorem exp2_nineteen : exp2 19 = 524288 := by
  rw [exp2_eq_zpow]
  norm_num

theorem tileToLat_one_nineteen :
    tileToLat 1 19
      = Real.arctan (Real.sinh (Real.pi - 2 * Real.pi / 524288)) * 57.2958 := by
  simp only [tileToLat, exp2_nineteen]
  norm_num

/-- C4: the code at the failing input `y = 0`, `z = 0`. `tileToLat` multiplies the
radian latitude `atan(sinh π)` by `57.2958`, which is strictly more than the value
`atan(sinh π) * (180/π)` of the inverse Web Mercator formula. -/
theorem tileToLat_origin_gt :
    tileToLat 0 0 = Real.arctan (Real.sinh Real.pi) * 57.2958
    ∧ Real.arctan (Real.sinh (Real.pi - 2 * Real.pi * ((0 : Int) : ℝ) / (2 : ℝ) ^ (0 : Int)))
        * (180 / Real.pi) < tileToLat 0 0
    ∧ tileToLat 0 0
        ≠ Real.arctan (Real.sinh (Real.pi - 2 * Real.pi * ((0 : Int) : ℝ) / (2 : ℝ) ^ (0 : Int)))
          * (180 / Real.pi) := by
  have h0 : Real.pi - 2 * Real.pi * ((0 : Int) : ℝ) / (2 : ℝ) ^ (0 : Int) = Real.pi := by
    simp
  have hlt : Real.arctan (Real.sinh Real.pi) * (180 / Real.pi) < tileToLat 0 0 := by
    rw [tileToLat_zero]
    exact mul_lt_mul_of_pos_left degrees_lt_const arctan_sinh_pi_pos
  rw [h0]
  exact ⟨tileToLat_zero 0, hlt, hlt.ne'⟩

/-! ### The centre of tile (19, 0, 0) -/

theorem cosh_ge_of_gt {t : ℝ} (ht : 3.1415 < t) : (11.55 : ℝ) ≤ Real.cosh t := by
  have h1 : Real.exp 3.1415 ≤ Real.exp t := Real.exp_le_exp.mpr ht.le
  have h2 := exp_ge_23
  have h3 : 0 < Real.exp (-t) := Real.exp_pos _
  rw [Real.cosh_eq]
  linarith

theorem sinh_pi_ge : (11.5 : ℝ) ≤ Real.sinh Real.pi := by
  have h1 : (11.5 : ℝ) ≤ Real.sinh 3.1415 :=
    le_sinh_of_le_exp (by norm_num) exp_ge_23 (by norm_num)
  have h2 : Real.sinh 3.1415 ≤ Real.sinh Real.pi :=
    Real.sinh_le_sinh.mpr (by linarith [Real.pi_gt_d4])
  linarith

theorem sinh_pi_le : Real.sinh Real.pi ≤ 28 := by
  have h1 : Real.sinh Real.pi ≤ Real.sinh 4 :=
    Real.sinh_le_sinh.mpr Real.pi_lt_four.le
  have hexp : Real.exp 4 ≤ 54.6 := by
    have e : Real.exp 4 = Real.exp 1 ^ 4 := by
      rw [← Real.exp_nat_mul]
      norm_num
    rw [e]
    calc Real.exp 1 ^ 4 ≤ (2.7182818286 : ℝ) ^ 4 :=
          pow_le_pow_left₀ (Real.exp_pos 1).le Real.exp_one_lt_d9.le 4
      _ ≤ 54.6 := by norm_num
  have h2 : Real.sinh 4 ≤ 28 := sinh_le_of_exp_le hexp (by norm_num)
  linarith

theorem arctan_sinh_pi_ge : (1.4838 : ℝ) ≤ Real.arctan (Real.sinh Real.pi) := by
  have hS : 0 < Real.sinh Real.pi := by linarith [sinh_pi_ge]
  have h := Real.arctan_inv_of_pos hS
  have hinv : (Real.sinh Real.pi)⁻¹ ≤ (11.5 : ℝ)⁻¹ :=
    inv_anti₀ (by norm_num) sinh_pi_ge
  have h1 : Real.arctan (Real.sinh Real.pi)⁻¹ ≤ (Real.sinh Real.pi)⁻¹ :=
    arctan_le_self_of_nonneg (inv_nonneg.mpr hS.le)
  have h2 : ((11.5 : ℝ)⁻¹) ≤ 0.08696 := by norm_num
  have := Real.pi_gt_d6
  linarith

theorem arctan_sinh_pi_le :
    Real.arctan (Real.sinh Real.pi) ≤ Real.pi / 2 - 0.03 := by
  have hS : 0 < Real.sinh Real.pi := by linarith [sinh_pi_ge]
  have h := Real.arctan_inv_of_pos hS
  have hinv : ((28 : ℝ)⁻¹) ≤ (Real.sinh Real.pi)⁻¹ := inv_anti₀ hS sinh_pi_le
  have h1 : Real.arctan ((28 : ℝ)⁻¹) ≤ Real.arctan (Real.sinh Real.pi)⁻¹ :=
    Real.arctan_strictMono.monotone hinv
  have h2 : ((28 : ℝ)⁻¹) - ((28 : ℝ)⁻¹) ^ 3 / 3 ≤ Real.arctan ((28 : ℝ)⁻¹) :=
    cubic_le_arctan (by norm_num)
  have h3 : (0.03 : ℝ) ≤ ((28 : ℝ)⁻¹) - ((28 : ℝ)⁻¹) ^ 3 / 3 := by norm_num
  linarith

/-- The radian latitudes of the two row boundaries of tile (19, 0, 0) differ by
little. -/
theorem row_zero_gap :
    Real.arctan (Real.sinh Real.pi)
      - Real.arctan (Real.sinh (Real.pi - 2 * Real.pi / 524288))
      ≤ 1 / 11.55 * (2 * Real.pi / 524288) := by
  have hlo := Real.pi_gt_d6
  have hhi := Real.pi_lt_d6
  have ha : (3.1415 : ℝ) ≤ Real.pi - 2 * Real.pi / 524288 := by linarith
  have hab : Real.pi - 2 * Real.pi / 524288 ≤ Real.pi := by linarith
  have := arctan_sinh_sub_le (by norm_num : (0 : ℝ) < 11.55)
    (fun t ht => cosh_ge_of_gt ht) ha hab
  have e : Real.pi - (Real.pi - 2 * Real.pi / 524288) = 2 * Real.pi / 524288 := by ring
  rwa [e] at this

/-- The radian latitude handed to `Deg2num` for the centre of tile (19, 0, 0) lies
north of the northern edge of row 0 and south of the pole. -/
theorem centre_lat_range :
    Real.arctan (Real.sinh Real.pi)
      < (tileToLat 0 19 + tileToLat (0 + 1) 19) / 2 * Real.pi / 180.0
    ∧ (tileToLat 0 19 + tileToLat (0 + 1) 19) / 2 * Real.pi / 180.0 < Real.pi / 2 := by
  have e1 : ((0 : Int) + 1) = 1 := rfl
  rw [e1, tileToLat_zero, tileToLat_one_nineteen]
  set A := Real.arctan (Real.sinh Real.pi) with hA
  set B := Real.arctan (Real.sinh (Real.pi - 2 * Real.pi / 524288)) with hB
  have hgap : A - B ≤ 1 / 11.55 * (2 * Real.pi / 524288) := row_zero_gap
  have hAlo : (1.4838 : ℝ) ≤ A := arctan_sinh_pi_ge
  have hAhi : A ≤ Real.pi / 2 - 0.03 := arctan_sinh_pi_le
  have hBA : B ≤ A := by
    apply Real.arctan_strictMono.monotone
    apply Real.sinh_le_sinh.mpr
    linarith [Real.pi_pos]
  have hlo := Real.pi_gt_d20
  have hhi := Real.pi_lt_d6
  have hk0 : (1 + 3.5756e-7 : ℝ) ≤ 57.2958 * Real.pi / 180 := by linarith
  have hk1 : 57.2958 * Real.pi / 180 ≤ (1 + 5e-7 : ℝ) := by linarith
  have hd : 1 / 11.55 * (2 * Real.pi / 524288) ≤ (1.03760e-6 : ℝ) := by linarith
  have hmid : A - 1.03760e-6 / 2 ≤ (A + B) / 2 := by linarith
  have hmid0 : (0 : ℝ) ≤ A - 1.03760e-6 / 2 := by linarith
  have heq : (A * 57.2958 + B * 57.2958) / 2 * Real.pi / 180.0
      = (57.2958 * Real.pi / 180) * ((A + B) / 2) := by
    norm_num
    ring
  rw [heq]
  constructor
  · have h1 : (1 + 3.5756e-7 : ℝ) * (A - 1.03760e-6 / 2)
        ≤ (57.2958 * Real.pi / 180) * ((A + B) / 2) :=
      mul_le_mul hk0 hmid hmid0 (by linarith)
    nlinarith
  · have h1 : (57.2958 * Real.pi / 180) * ((A + B) / 2) ≤ (1 + 5e-7 : ℝ) * A :=
      mul_le_mul hk1 (by linarith) (by linarith) (by norm_num)
    have hA2 : A ≤ 2 := by linarith [Real.pi_lt_four]
    nlinarith

/-- C7: the code at the failing input `(z, x, y) = (19, 0, 0)`. The centre of the
bounds of that tile handed to `Deg2num` gives a negative row, so the result is not
`(0, 0)`: the latitudes of `Bounds` carry the factor `57.2958`, `Deg2num` divides by
`180/π`. The column is recovered. -/
theorem deg2num_centre_row_negative :
    (Tile.atCentre 19 0 0).Deg2num.2 < 0
    ∧ (Tile.atCentre 19 0 0).Deg2num.1 = 0
    ∧ (Tile.atCentre 19 0 0).Deg2num ≠ (0, 0) := by
  have hw : wrap64 ((0 : Int) + 1) = 0 + 1 := wrap64_succ (by decide) (by decide)
  have hrow : (Tile.atCentre 19 0 0).Deg2num.2 < 0 := by
    obtain ⟨h1, h2⟩ := centre_lat_range
    have hlog := pi_lt_log_tan_add_sec h1 h2
    have hpi := Real.pi_pos
    simp only [Tile.atCentre, Tile.Bounds, Tile.Deg2num, hw]
    rw [Int.floor_lt]
    have hdiv : 1 < Real.log (Real.tan ((tileToLat 0 19 + tileToLat (0 + 1) 19) / 2
        * Real.pi / 180.0) + 1 / Real.cos ((tileToLat 0 19 + tileToLat (0 + 1) 19) / 2
        * Real.pi / 180.0)) / Real.pi := by
      rw [lt_div_iff₀ hpi]
      linarith
    have hz := exp2_pos 19
    norm_num
    apply mul_neg_of_neg_of_pos _ hz
    norm_num at hdiv
    linarith
  have hcol : (Tile.atCentre 19 0 0).Deg2num.1 = 0 := by
    simp only [Tile.atCentre, Tile.Bounds, Tile.Deg2num, tileToLon, exp2_nineteen, hw]
    rw [Int.floor_eq_iff]
    norm_num
  refine ⟨hrow, hcol, ?_⟩
  intro h
  rw [h] at hrow
  exact lt_irrefl _ hrow

/-! ### Numeric enclosure of the latitude of a row -/

/-- Upper enclosure of `atan(sinh x)`: `e` bounds `exp y` by its Taylor polynomial
with remainder, `E` bounds `exp (2 y)`, `s` bounds `sinh`, and `r` bounds the arc
tangent of `(s - 1)/(s + 1)`. -/
theorem arctan_sinh_le {x y e E s r : ℝ} (hx : x ≤ 2 * y) (hy0 : 0 ≤ y) (hy1 : y ≤ 1)
    (he : ∑ m ∈ Finset.range 8, y ^ m / (m.factorial : ℝ)
        + y ^ 8 * ((8 : ℕ) + 1) / ((Nat.factorial 8 : ℕ) * (8 : ℕ)) ≤ e)
    (hE : e ^ 2 ≤ E) (hs : (E - 1 / E) / 2 ≤ s) (hs1 : 1 ≤ s)
    (hr : (s - 1) / (s + 1) - ((s - 1) / (s + 1)) ^ 3 / 3 + ((s - 1) / (s + 1)) ^ 5 / 5 ≤ r) :
    Real.arctan (Real.sinh x) ≤ Real.pi / 4 + r := by
  have hexpy : Real.exp y ≤ e := (Real.exp_bound' hy0 hy1 (by norm_num : 0 < 8)).trans he
  have hexp : Real.exp (2 * y) ≤ E := by
    have e2 : Real.exp (2 * y) = Real.exp y ^ 2 := by
      rw [← Real.exp_nat_mul]
      norm_num
    rw [e2]
    exact (pow_le_pow_left₀ (Real.exp_pos y).le hexpy 2).trans hE
  have hsinh : Real.sinh x ≤ s :=
    (Real.sinh_le_sinh.mpr hx).trans (sinh_le_of_exp_le hexp hs)
  have hu : 0 ≤ (s - 1) / (s + 1) := div_nonneg (by linarith) (by linarith)
  calc Real.arctan (Real.sinh x) ≤ Real.arctan s := Real.arctan_strictMono.monotone hsinh
    _ = Real.pi / 4 + Real.arctan ((s - 1) / (s + 1)) :=
      arctan_eq_quarter_add (by linarith)
    _ ≤ Real.pi / 4 + r := by linarith [arctan_le_quintic hu]

/-- Lower enclosure of `atan(sinh x)`, the mirror of `arctan_sinh_le`. -/
theorem le_arctan_sinh {x y e E s r : ℝ} (hx : 2 * y ≤ x) (hy0 : 0 ≤ y)
    (he : e ≤ ∑ m ∈ Finset.range 8, y ^ m / (m.factorial : ℝ)) (he0 : 0 ≤ e)
    (hE : E ≤ e ^ 2) (hE0 : 0 < E) (hs : s ≤ (E - 1 / E) / 2) (hs1 : 1 ≤ s)
    (hr : r ≤ (s - 1) / (s + 1) - ((s - 1) / (s + 1)) ^ 3 / 3) :
    Real.pi / 4 + r ≤ Real.arctan (Real.sinh x) := by
  have hexpy : e ≤ Real.exp y := he.trans (Real.sum_le_exp_of_nonneg hy0 8)
  have hexp : E ≤ Real.exp (2 * y) := by
    have e2 : Real.exp (2 * y) = Real.exp y ^ 2 := by
      rw [← Real.exp_nat_mul]
      norm_num
    rw [e2]
    exact hE.trans (pow_le_pow_left₀ he0 hexpy 2)
  have hsinh : s ≤ Real.sinh x :=
    (le_sinh_of_le_exp hE0 hexp hs).trans (Real.sinh_le_sinh.mpr hx)
  have hu : 0 ≤ (s - 1) / (s + 1) := div_nonneg (by linarith) (by linarith)
  calc Real.pi / 4 + r ≤ Real.pi / 4 + Real.arctan ((s - 1) / (s + 1)) := by
        linarith [cubic_le_arctan hu]
    _ = Real.arctan s := (arctan_eq_quarter_add (by linarith)).symm
    _ ≤ Real.arctan (Real.sinh x) := Real.arctan_strictMono.monotone hsinh

theorem exp2_fourteen : exp2 14 = 16384 := by
  rw [exp2_eq_zpow]
  norm_num

/-- The northern edge of row 5384 at zoom 14 lies between 52.374 and 52.377
degrees. -/
theorem north_enclosure : (52.374 : ℝ) ≤ tileToLat 5384 14 ∧ tileToLat 5384 14 ≤ 52.377 := by
  have hlo := Real.pi_gt_d6
  have hhi := Real.pi_lt_d6
  have hx : Real.pi - 2.0 * Real.pi * ((5384 : Int) : ℝ) / exp2 14
      = Real.pi * 351 / 1024 := by
    rw [exp2_fourteen]
    norm_num
    ring
  have hU : Real.arctan (Real.sinh (Real.pi * 351 / 1024)) ≤ Real.pi / 4 + 0.1287323 :=
    arctan_sinh_le (y := 0.53843) (e := 1.7133149) (E := 2.935448) (s := 1.297393)
      (by linarith) (by norm_num) (by norm_num)
      (by norm_num [Finset.sum_range_succ, Nat.factorial])
      (by norm_num) (by norm_num) (by norm_num) (by norm_num)
  have hL : Real.pi / 4 + 0.1287179 ≤ Real.arctan (Real.sinh (Real.pi * 351 / 1024)) :=
    le_arctan_sinh (y := 0.538425) (e := 1.713306) (E := 2.935417) (s := 1.297374)
      (by linarith) (by norm_num)
      (by norm_num [Finset.sum_range_succ, Nat.factorial])
      (by norm_num) (by norm_num) (by norm_num) (by norm_num) (by norm_num) (by norm_num)
  simp only [tileToLat]
  rw [hx]
  constructor <;> linarith

/-- The southern edge of row 5384 at zoom 14 lies between 52.361 and 52.363
degrees. -/
theorem south_enclosure :
    (52.361 : ℝ) ≤ tileToLat (5384 + 1) 14 ∧ tileToLat (5384 + 1) 14 ≤ 52.363 := by
  have hlo := Real.pi_gt_d6
  have hhi := Real.pi_lt_d6
  have hx : Real.pi - 2.0 * Real.pi * (((5384 + 1 : Int)) : ℝ) / exp2 14
      = Real.pi * 2807 / 8192 := by
    rw [exp2_fourteen]
    norm_num
    ring
  have hU : Real.arctan (Real.sinh (Real.pi * 2807 / 8192)) ≤ Real.pi / 4 + 0.1285004 :=
    arctan_sinh_le (y := 0.53824) (e := 1.7129894) (E := 2.934333) (s := 1.296771)
      (by linarith) (by norm_num) (by norm_num)
      (by norm_num [Finset.sum_range_succ, Nat.factorial])
      (by norm_num) (by norm_num) (by norm_num) (by norm_num)
  have hL : Real.pi / 4 + 0.128486 ≤ Real.arctan (Real.sinh (Real.pi * 2807 / 8192)) :=
    le_arctan_sinh (y := 0.538235) (e := 1.7129805) (E := 2.934302) (s := 1.296752)
      (by linarith) (by norm_num)
      (by norm_num [Finset.sum_range_succ, Nat.factorial])
      (by norm_num) (by norm_num) (by norm_num) (by norm_num) (by norm_num) (by norm_num)
  simp only [tileToLat]
  rw [hx]
  constructor <;> linarith

theorem west_value : tileToLon 8414 14 = 4.8779296875 := by
  simp only [tileToLon, exp2_fourteen]
  norm_num

theorem east_value : tileToLon (8414 + 1) 14 = 4.89990234375 := by
  simp only [tileToLon, exp2_fourteen]
  norm_num

/-- C3, as stated, fails: for the tile zoom 14, column 8414, row 5384 none of the
four components of `Bounds` lies within 0.01 of the stated value (north 52.233,
south 52.216, west 4.9219, east 4.9438). -/
theorem testTile_bounds_counterexample :
    ¬ (|testTile.Bounds.1 - 52.233| ≤ (0.01 : ℝ)
        ∧ |testTile.Bounds.2.2.1 - 52.216| ≤ (0.01 : ℝ)
        ∧ |testTile.Bounds.2.2.2 - 4.9219| ≤ (0.01 : ℝ)
        ∧ |testTile.Bounds.2.1 - 4.9438| ≤ (0.01 : ℝ))
    ∧ ¬ |testTile.Bounds.1 - 52.233| ≤ (0.01 : ℝ)
    ∧ ¬ |testTile.Bounds.2.2.1 - 52.216| ≤ (0.01 : ℝ)
    ∧ ¬ |testTile.Bounds.2.2.2 - 4.9219| ≤ (0.01 : ℝ)
    ∧ ¬ |testTile.Bounds.2.1 - 4.9438| ≤ (0.01 : ℝ) := by
  have hN : testTile.Bounds.1 = tileToLat 5384 14 := by rw [testTile_stored.1]
  have hS : testTile.Bounds.2.2.1 = tileToLat (5384 + 1) 14 := by rw [testTile_stored.1]
  have hW : testTile.Bounds.2.2.2 = tileToLon 8414 14 := by rw [testTile_stored.1]
  have hE : testTile.Bounds.2.1 = tileToLon (8414 + 1) 14 := by rw [testTile_stored.1]
  have hn : ¬ |testTile.Bounds.1 - 52.233| ≤ (0.01 : ℝ) := by
    rw [hN, abs_le]
    intro h
    linarith [north_enclosure.1, h.2]
  have hs : ¬ |testTile.Bounds.2.2.1 - 52.216| ≤ (0.01 : ℝ) := by
    rw [hS, abs_le]
    intro h
    linarith [south_enclosure.1, h.2]
  have hw : ¬ |testTile.Bounds.2.2.2 - 4.9219| ≤ (0.01 : ℝ) := by
    rw [hW, west_value, abs_le]
    norm_num
  have he : ¬ |testTile.Bounds.2.1 - 4.9438| ≤ (0.01 : ℝ) := by
    rw [hE, east_value, abs_le]
    norm_num
  exact ⟨fun h => hn h.1, hn, hs, hw, he⟩

/-- C3, amended: for the tile zoom 14, column 8414, row 5384 `Bounds` returns north
within 0.01 of 52.376, south within 0.01 of 52.362, west within 0.01 of 4.8779 and
east within 0.01 of 4.8999 (degrees). -/
theorem testTile_bounds :
    |testTile.Bounds.1 - 52.376| ≤ (0.01 : ℝ)
    ∧ |testTile.Bounds.2.2.1 - 52.362| ≤ (0.01 : ℝ)
    ∧ |testTile.Bounds.2.2.2 - 4.8779| ≤ (0.01 : ℝ)
    ∧ |testTile.Bounds.2.1 - 4.8999| ≤ (0.01 : ℝ) := by
  have hN : testTile.Bounds.1 = tileToLat 5384 14 := by rw [testTile_stored.1]
  have hS : testTile.Bounds.2.2.1 = tileToLat (5384 + 1) 14 := by rw [testTile_stored.1]
  have hW : testTile.Bounds.2.2.2 = tileToLon 8414 14 := by rw [testTile_stored.1]
  have hE : testTile.Bounds.2.1 = tileToLon (8414 + 1) 14 := by rw [testTile_stored.1]
  refine ⟨?_, ?_, ?_, ?_⟩
  · rw [hN, abs_le]
    constructor <;> linarith [north_enclosure.1, north_enclosure.2]
  · rw [hS, abs_le]
    constructor <;> linarith [south_enclosure.1, south_enclosure.2]
  · rw [hW, west_value, abs_le]
    norm_num
  · rw [hE, east_value, abs_le]
    norm_num

/-! ### Feature classifier -/

/-- C1: for every tag mapping the category assigned inside `draw` is the outcome of
the first matching rule of the seven-rule table, and the seven listed examples
classify as stated. -/
theorem classify_eq_firstMatch :
    (∀ tags : Tags, classify tags = firstMatch ruleTable tags)
    ∧ classify (tagsOf [("highway", "motorway")]) = none
    ∧ classify (tagsOf [("highway", "unclassified")]) = some "route_residential"
    ∧ classify (tagsOf [("natural", "water")]) = some "water"
    ∧ classify (tagsOf [("leisure", "stadium")]) = none
    ∧ classify (tagsOf [("leisure", "park")]) = some "park"
    ∧ classify (tagsOf [("amenity", "cafe")]) = some "building"
    ∧ classify (tagsOf []) = none := by
  refine ⟨?_, by decide, by decide, by decide, by decide, by decide, by decide, by decide⟩
  intro tags
  simp only [classify, ruleTable, firstMatch, ruleHighway, ruleManMade, ruleNatural,
    ruleRailway, ruleLeisure, ruleAmenity, ruleElse]
  cases hh : tags "highway" with
  | some hw =>
    simp only [Option.map_some']
    by_cases h1 : hw = "primary"
    · subst h1; decide
    by_cases h2 : hw = "secondary"
    · subst h2; decide
    by_cases h3 : hw = "unclassified"
    · subst h3; decide
    by_cases h4 : hw = "residential"
    · subst h4; decide
    by_cases h5 : hw = "pedestrian"
    · subst h5; decide
    simp [h1, h2, h3, h4, h5]
  | none =>
    simp only [Option.map_none']
    by_cases hm : tags "man_made" = some "bridge"
    · simp [hm]
    simp only [hm, if_false]
    cases hn : tags "natural" with
    | some v => simp
    | none =>
      simp only [Option.isSome_none, Option.map_none']
      by_cases hr : tags "railway" = some "rail"
      · simp [hr]
      simp only [hr, if_false]
      cases hl : tags "leisure" with
      | some l =>
        simp only [Option.map_some']
        by_cases l1 : l = "park"
        · subst l1; decide
        by_cases l2 : l = "garden"
        · subst l2; decide
        by_cases l3 : l = "playground"
        · subst l3; decide
        simp [l1, l2, l3]
      | none =>
        cases ha : tags "amenity" <;> simp

/-- C2: highway precedence. Two tag mappings that hold `highway` with the same value
get the same outcome, whatever else they hold: the outcome is that of the mapping
holding the `highway` entry alone. So `{highway: primary, natural: water}` yields
`route_primary` and `{highway: motorway, amenity: cafe}` is dropped. -/
theorem classify_highway_precedence (t₁ t₂ : Tags) (v : String)
    (h₁ : t₁ "highway" = some v) (h₂ : t₂ "highway" = some v) :
    classify t₁ = classify t₂
    ∧ classify t₁ = classify (tagsOf [("highway", v)])
    ∧ classify (tagsOf [("highway", "primary"), ("natural", "water")]) = some "route_primary"
    ∧ classify (tagsOf [("highway", "motorway"), ("amenity", "cafe")]) = none := by
  have key : ∀ t : Tags, t "highway" = some v →
      classify t = classify (tagsOf [("highway", v)]) := by
    intro t ht
    have hv : tagsOf [("highway", v)] "highway" = some v := by
      simp [tagsOf, List.lookup]
    simp only [classify, ht, hv]
  exact ⟨(key t₁ h₁).trans (key t₂ h₂).symm, key t₁ h₁, by decide, by decide⟩

/-- Witness of `classify_highway_precedence`: `{highway: primary, natural: water}` and
`{amenity: cafe, highway: primary, man_made: bridge}`. -/
theorem classify_highway_precedence_witness :
    classify (tagsOf [("highway", "primary"), ("natural", "water")])
      = classify (tagsOf [("amenity", "cafe"), ("highway", "primary"), ("man_made", "bridge")])
    ∧ classify (tagsOf [("highway", "primary"), ("natural", "water")])
      = some "route_primary" :=
  ⟨(classify_highway_precedence
      (tagsOf [("highway", "primary"), ("natural", "water")])
      (tagsOf [("amenity", "cafe"), ("highway", "primary"), ("man_made", "bridge")])
      "primary" (by decide) (by decide)).1, by decide⟩

/-! ### Path assembly -/

theorem appendTo_same {α : Type} (m : String → Option (Path α)) (c : String) (p : Path α) :
    appendTo m c p c = some ((m c).getD [] ++ p) := by
  unfold appendTo
  cases h : m c <;> simp

theorem appendTo_other {α : Type} (m : String → Option (Path α)) (c : String) (p : Path α)
    {k : String} (hk : k ≠ c) : appendTo m c p k = m k := by
  simp [appendTo, hk]

theorem vertexPath_cons {α : Type} (p : Point α) (rest : List (Point α)) :
    vertexPath (p :: rest)
      = PathCmd.moveTo p.1 p.2 :: PathCmd.lineTo p.1 p.2
          :: rest.map fun q => PathCmd.lineTo q.1 q.2 := rfl

theorem lineToCount_map {α : Type} (g : List (Point α)) :
    lineToCount (g.map fun q => PathCmd.lineTo q.1 q.2) = g.length := by
  induction g with
  | nil => rfl
  | cons a t ih =>
    simp only [lineToCount, List.map_cons, List.length_cons] at ih ⊢
    rw [List.countP_cons_of_pos _ _ rfl, ih]

theorem moveToCount_map {α : Type} (g : List (Point α)) :
    moveToCount (g.map fun q => PathCmd.lineTo q.1 q.2) = 0 := by
  induction g with
  | nil => rfl
  | cons a t ih =>
    simp only [moveToCount, List.map_cons] at ih ⊢
    rw [List.countP_cons_of_neg _ _ (by simp), ih]

theorem closeCount_map {α : Type} (g : List (Point α)) :
    closeCount (g.map fun q => PathCmd.lineTo q.1 q.2) = 0 := by
  induction g with
  | nil => rfl
  | cons a t ih =>
    simp only [closeCount, List.map_cons] at ih ⊢
    rw [List.countP_cons_of_neg _ _ (by simp), ih]

theorem closeCount_append {α : Type} (p q : Path α) :
    closeCount (p ++ q) = closeCount p + closeCount q := by
  simp [closeCount, List.countP_append]

theorem closeCount_specRingPaths {α : Type} (g : List (List (Point α))) :
    closeCount (specRingPaths g).flatten = (g.filter fun ring => !ring.isEmpty).length := by
  induction g with
  | nil => rfl
  | cons r t ih =>
    cases r with
    | nil => simpa [specRingPaths] using ih
    | cons p rest =>
      have hstep : specRingPaths ((p :: rest) :: t)
          = ([PathCmd.moveTo p.1 p.2] ++ ((p :: rest).map fun q => PathCmd.lineTo q.1 q.2)
              ++ [PathCmd.close]) :: specRingPaths t := by
        simp [specRingPaths]
      have hlen : ((((p :: rest) :: t).filter fun ring => !ring.isEmpty).length)
          = (t.filter fun ring => !ring.isEmpty).length + 1 := by
        simp
      rw [hstep, hlen, List.flatten_cons, closeCount_append, ih, closeCount_append,
        closeCount_append, closeCount_map]
      simp [closeCount]
      omega

/-- The ring loop appends, to the entry of `category` only, the sub-paths of the
non-empty rings in ring order. -/
theorem addRings_eq {α : Type} (m : String → Option (Path α)) (c : String)
    (g : List (List (Point α))) :
    (∀ k, k ≠ c → addRings m c g k = m k)
    ∧ (specRingPaths g = [] → addRings m c g c = m c)
    ∧ (specRingPaths g ≠ [] →
        addRings m c g c = some ((m c).getD [] ++ (specRingPaths g).flatten)) := by
  induction g generalizing m with
  | nil => simp [addRings, specRingPaths]
  | cons r t ih =>
    cases r with
    | nil =>
      have h1 : addRings m c ([] :: t) = addRings m c t := by simp [addRings]
      have h2 : specRingPaths (([] : List (Point α)) :: t) = specRingPaths t := by
        simp [specRingPaths]
      rw [h1, h2]
      exact ih m
    | cons p rest =>
      have h1 : addRings m c ((p :: rest) :: t)
          = addRings (appendTo m c (ringPath (p :: rest))) c t := by
        simp [addRings]
      have h2 : specRingPaths ((p :: rest) :: t)
          = ringPath (p :: rest) :: specRingPaths t := by
        simp [specRingPaths, ringPath, vertexPath]
      obtain ⟨iho, ihe, ihn⟩ := ih (appendTo m c (ringPath (p :: rest)))
      rw [h1, h2]
      refine ⟨?_, ?_, ?_⟩
      · intro k hk
        rw [iho k hk, appendTo_other m c _ hk]
      · intro h
        exact absurd h (List.cons_ne_nil _ _)
      · intro _
        by_cases ht : specRingPaths t = []
        · rw [ihe ht, appendTo_same, ht]
          simp
        · rw [ihn ht, appendTo_same]
          simp

theorem segmentsFrom_lineTos {α : Type} [DecidableEq α] (p : Point α)
    (start : Option (Point α)) (rest : List (Point α)) :
    segmentsFrom (some p) start (rest.map fun q => PathCmd.lineTo q.1 q.2)
      = (consecutive (p :: rest)).filter fun ab => decide (ab.1 ≠ ab.2) := by
  induction rest generalizing p with
  | nil => rfl
  | cons q t ih =>
    have hq : ((q.1, q.2) : Point α) = q := rfl
    simp only [List.map_cons, segmentsFrom, hq]
    by_cases h : p = q
    · subst h
      rw [if_pos rfl, ih]
      simp [consecutive]
    · rw [if_neg h, ih]
      simp [consecutive, h]

/-- The `LineTo` that repeats the `MoveTo` point draws nothing: the path of the
source draws what the path of the specification draws. -/
theorem segments_vertexPath {α : Type} [DecidableEq α] (g : List (Point α)) :
    segments (vertexPath g) = segments (specOpenPath g)
    ∧ segments (vertexPath g) = (consecutive g).filter fun ab => decide (ab.1 ≠ ab.2) := by
  cases g with
  | nil => exact ⟨rfl, rfl⟩
  | cons p rest =>
    have hp : ((p.1, p.2) : Point α) = p := rfl
    have h1 : segments (vertexPath (p :: rest))
        = segmentsFrom (some p) (some p) (rest.map fun q => PathCmd.lineTo q.1 q.2) := by
      simp only [segments, vertexPath, List.map_cons, segmentsFrom, hp, if_pos]
    have h2 : segments (specOpenPath (p :: rest))
        = segmentsFrom (some p) (some p) (rest.map fun q => PathCmd.lineTo q.1 q.2) := by
      simp only [segments, specOpenPath, segmentsFrom, hp]
    exact ⟨h1.trans h2.symm, h1.trans (segmentsFrom_lineTos p (some p) rest)⟩

theorem consecutive_length {α : Type} (g : List (Point α)) :
    (consecutive g).length = g.length - 1 := by
  simp [consecutive]

/-- C8: a classified line string with `n ≥ 2` vertices adds one open sub-path to the
line accumulator of its category and changes nothing else. The path draws exactly
what the path of the specification draws, one move-to at the first vertex followed
by one line-to for each subsequent vertex, `n - 1` line-to calls and no close: the
extra `LineTo` of the source repeats the move-to point and draws nothing. The
segments drawn are those, of non-zero length, between the `n - 1` pairs of
consecutive vertices. -/
theorem lineString_path {α : Type} [DecidableEq α] (acc : Acc α) (f : Feature α)
    (tags : Tags) (category : String) (g : List (Point α))
    (ht : f.tags = some tags) (hc : classify tags = some category)
    (hg : f.geometry = .lineString g) (hn : 2 ≤ g.length) :
    (drawFeature acc f).lines category
      = some ((acc.lines category).getD [] ++ vertexPath g)
    ∧ segments (vertexPath g) = segments (specOpenPath g)
    ∧ (∃ p rest, g = p :: rest
        ∧ specOpenPath g = PathCmd.moveTo p.1 p.2 :: rest.map fun q => PathCmd.lineTo q.1 q.2)
    ∧ moveToCount (specOpenPath g) = 1
    ∧ lineToCount (specOpenPath g) = g.length - 1
    ∧ closeCount (specOpenPath g) = 0
    ∧ moveToCount (vertexPath g) = 1
    ∧ closeCount (vertexPath g) = 0
    ∧ segments (vertexPath g) = (consecutive g).filter (fun ab => decide (ab.1 ≠ ab.2))
    ∧ (consecutive g).length = g.length - 1
    ∧ (∀ k, k ≠ category → (drawFeature acc f).lines k = acc.lines k)
    ∧ (drawFeature acc f).rings = acc.rings
    ∧ (drawFeature acc f).reports = acc.reports := by
  have hlen : 1 < g.length := by omega
  have hd : drawFeature acc f
      = { acc with lines := appendTo acc.lines category (vertexPath g) } := by
    simp only [drawFeature, ht, hc, hg, assemble, hlen, if_true]
  obtain ⟨hseg, hcons⟩ := segments_vertexPath g
  cases g with
  | nil => simp at hn
  | cons p rest =>
    refine ⟨?_, hseg, ⟨p, rest, rfl, rfl⟩, ?_, ?_, ?_, ?_, ?_, hcons,
      consecutive_length _, ?_, ?_, ?_⟩
    · rw [hd]
      exact appendTo_same _ _ _
    · have := moveToCount_map rest
      simp only [moveToCount, specOpenPath] at this ⊢
      rw [List.countP_cons_of_pos _ _ rfl, this]
    · have := lineToCount_map rest
      simp only [lineToCount, specOpenPath] at this ⊢
      rw [List.countP_cons_of_neg _ _ (by simp), this]
      simp
    · have := closeCount_map rest
      simp only [closeCount, specOpenPath] at this ⊢
      rw [List.countP_cons_of_neg _ _ (by simp), this]
    · have := moveToCount_map (p :: rest)
      simp only [moveToCount, vertexPath] at this ⊢
      rw [List.countP_cons_of_pos _ _ rfl, this]
    · have := closeCount_map (p :: rest)
      simp only [closeCount, vertexPath] at this ⊢
      rw [List.countP_cons_of_neg _ _ (by simp), this]
    · intro k hk
      rw [hd]
      exact appendTo_other _ _ _ hk
    · rw [hd]
    · rw [hd]

/-- Witness of `lineString_path`: the line string `[(0,0), (1,1), (2,1)]` tagged
`railway = rail`, added to empty accumulators. -/
theorem lineString_path_witness :
    (drawFeature (Acc.empty : Acc Int)
        ⟨some (tagsOf [("railway", "rail")]), .lineString [(0, 0), (1, 1), (2, 1)]⟩).lines
        "route_transit"
      = some ((((Acc.empty : Acc Int).lines "route_transit").getD [])
          ++ vertexPath [(0, 0), (1, 1), (2, 1)])
    ∧ segments (vertexPath [((0 : Int), (0 : Int)), (1, 1), (2, 1)])
      = segments (specOpenPath [((0 : Int), (0 : Int)), (1, 1), (2, 1)])
    ∧ segments (vertexPath [((0 : Int), (0 : Int)), (1, 1), (2, 1)])
      = [((0, 0), (1, 1)), ((1, 1), (2, 1))] :=
  have h := lineString_path (Acc.empty : Acc Int)
    ⟨some (tagsOf [("railway", "rail")]), .lineString [(0, 0), (1, 1), (2, 1)]⟩
    (tagsOf [("railway", "rail")]) "route_transit" [(0, 0), (1, 1), (2, 1)]
    rfl (by decide) rfl (by decide)
  ⟨h.1, h.2.1, by decide⟩

/-- A classified line string with fewer than two vertices leaves `lines` and `rings`
alone and is printed as an unsupported geometry. -/
theorem short_lineString {α : Type} (acc : Acc α) (f : Feature α) (tags : Tags)
    (category : String) (g : List (Point α))
    (ht : f.tags = some tags) (hc : classify tags = some category)
    (hg : f.geometry = .lineString g) (hn : g.length < 2) :
    (drawFeature acc f).lines = acc.lines
    ∧ (drawFeature acc f).rings = acc.rings
    ∧ (drawFeature acc f).reports = acc.reports ++ [Geometry.lineString g] := by
  have hlen : ¬ 1 < g.length := by omega
  have hd : drawFeature acc f
      = { acc with reports := acc.reports ++ [Geometry.lineString g] } := by
    simp only [drawFeature, ht, hc, hg, assemble, hlen, if_false]
  rw [hd]
  exact ⟨rfl, rfl, rfl⟩

/-- C9: the code at the failing inputs. A classified line string with one vertex, and
one with none, change no accumulator, but each is printed after
"unsupported geometry:" (the final `else` of the geometry dispatch), whereas a
classified point is dropped with no report. -/
theorem short_lineString_reported :
    (drawFeature (Acc.empty : Acc Int)
        ⟨some (tagsOf [("highway", "primary")]), .lineString [(0, 0)]⟩).reports
      = [.lineString [(0, 0)]]
    ∧ (drawFeature (Acc.empty : Acc Int)
        ⟨some (tagsOf [("highway", "primary")]), .lineString []⟩).reports
      = [.lineString []]
    ∧ (drawFeature (Acc.empty : Acc Int)
        ⟨some (tagsOf [("highway", "primary")]), .point (0, 0)⟩).reports = []
    ∧ (∀ k, (drawFeature (Acc.empty : Acc Int)
        ⟨some (tagsOf [("highway", "primary")]), .lineString [(0, 0)]⟩).lines k = none)
    ∧ (∀ k, (drawFeature (Acc.empty : Acc Int)
        ⟨some (tagsOf [("highway", "primary")]), .lineString [(0, 0)]⟩).rings k = none) := by
  refine ⟨by decide, by decide, by decide, ?_, ?_⟩
  · intro k
    have h := short_lineString (Acc.empty : Acc Int)
      ⟨some (tagsOf [("highway", "primary")]), .lineString [(0, 0)]⟩
      (tagsOf [("highway", "primary")]) "route_primary" [(0, 0)] rfl (by decide) rfl
      (by decide)
    rw [h.1]
    rfl
  · intro k
    have h := short_lineString (Acc.empty : Acc Int)
      ⟨some (tagsOf [("highway", "primary")]), .lineString [(0, 0)]⟩
      (tagsOf [("highway", "primary")]) "route_primary" [(0, 0)] rfl (by decide) rfl
      (by decide)
    rw [h.2.1]
    rfl

/-- C10: a classified polygon adds to the ring accumulator of its category, in ring
order, one closed sub-path per non-empty ring (move-to at the first vertex, a
line-to at each vertex, close) and nothing for an empty ring; the number of closes
added is the number of non-empty rings; the ring accumulators of the other
categories, the line accumulators and the reports are unchanged. -/
theorem polygon_rings {α : Type} (acc : Acc α) (f : Feature α) (tags : Tags)
    (category : String) (g : List (List (Point α)))
    (ht : f.tags = some tags) (hc : classify tags = some category)
    (hg : f.geometry = .polygon g) :
    (specRingPaths g = [] → (drawFeature acc f).rings category = acc.rings category)
    ∧ (specRingPaths g ≠ [] → (drawFeature acc f).rings category
        = some ((acc.rings category).getD [] ++ (specRingPaths g).flatten))
    ∧ (specRingPaths g).length = (g.filter fun ring => !ring.isEmpty).length
    ∧ closeCount (specRingPaths g).flatten = (g.filter fun ring => !ring.isEmpty).length
    ∧ (∀ k, k ≠ category → (drawFeature acc f).rings k = acc.rings k)
    ∧ (drawFeature acc f).lines = acc.lines
    ∧ (drawFeature acc f).reports = acc.reports := by
  have hd : drawFeature acc f = { acc with rings := addRings acc.rings category g } := by
    simp only [drawFeature, ht, hc, hg, assemble]
  obtain ⟨ho, he, hne⟩ := addRings_eq acc.rings category g
  rw [hd]
  refine ⟨he, hne, ?_, closeCount_specRingPaths g, ho, rfl, rfl⟩
  simp [specRingPaths]

/-- Witness of `polygon_rings`: a polygon tagged `leisure = park` with a triangle,
an empty ring and a two-vertex ring. -/
theorem polygon_rings_witness :
    (drawFeature (Acc.empty : Acc Int)
        ⟨some (tagsOf [("leisure", "park")]),
          .polygon [[(0, 0), (4, 0), (0, 4)], [], [(1, 1), (2, 1)]]⟩).lines
      = (Acc.empty : Acc Int).lines
    ∧ closeCount (specRingPaths
        [[((0 : Int), (0 : Int)), (4, 0), (0, 4)], [], [(1, 1), (2, 1)]]).flatten = 2 :=
  have h := polygon_rings (Acc.empty : Acc Int)
    ⟨some (tagsOf [("leisure", "park")]),
      .polygon [[(0, 0), (4, 0), (0, 4)], [], [(1, 1), (2, 1)]]⟩
    (tagsOf [("leisure", "park")]) "park" [[(0, 0), (4, 0), (0, 4)], [], [(1, 1), (2, 1)]]
    rfl (by decide) rfl
  ⟨h.2.2.2.2.2.1, h.2.2.2.1⟩

/-! ### Multi-polygons -/

theorem addRings_append {α : Type} (m : String → Option (Path α)) (c : String)
    (g h : List (List (Point α))) :
    addRings m c (g ++ h) = addRings (addRings m c g) c h := by
  simp [addRings, List.foldl_append]

theorem addPolygons_eq_addRings {α : Type} (m : String → Option (Path α)) (c : String)
    (g : List (List (List (Point α)))) :
    addPolygons m c g = addRings m c g.flatten := by
  induction g generalizing m with
  | nil => rfl
  | cons p t ih =>
    have h1 : addPolygons m c (p :: t) = addPolygons (addRings m c p) c t := rfl
    rw [h1, List.flatten_cons, addRings_append, ih]

/-- C11: assembling a multi-polygon yields the same accumulators as assembling the
single polygon whose ring list is the concatenation, in order, of the ring lists of
its polygons; so does the whole loop body, whatever the tags of the feature. -/
theorem multiPolygon_eq_polygon_flatten {α : Type} (acc : Acc α) (category : String)
    (g : List (List (List (Point α)))) :
    assemble acc category (.multiPolygon g) = assemble acc category (.polygon g.flatten)
    ∧ (∀ tags : Option Tags,
        drawFeature acc ⟨tags, .multiPolygon g⟩ = drawFeature acc ⟨tags, .polygon g.flatten⟩) := by
  have h : assemble acc category (.multiPolygon g)
      = assemble acc category (.polygon g.flatten) := by
    simp only [assemble, addPolygons_eq_addRings]
  refine ⟨h, ?_⟩
  intro tags
  cases tags with
  | none => rfl
  | some t =>
    simp only [drawFeature]
    cases classify t with
    | none => rfl
    | some c => simp only [assemble, addPolygons_eq_addRings]

/-! ### Compositor -/

theorem painted_append_setFill {α : Type} (col c : RGBA) (rest : List (CanvasOp α)) :
    painted col (CanvasOp.setFillColor c :: rest) = painted c rest := rfl

/-- One round of the category loop paints the calls asked of the category and
leaves the fill colour of the category current. -/
theorem painted_drawCategory {α : Type} (lines rings : String → Option (Path α))
    (cat : String) (col : RGBA) (rest : List (CanvasOp α)) :
    painted col (drawCategory lines rings cat ++ rest)
      = specCalls lines rings cat ++ painted (categories cat) rest := by
  unfold drawCategory specCalls
  cases lines cat <;> cases rings cat <;> simp [painted]

theorem painted_flatMap {α : Type} (lines rings : String → Option (Path α))
    (cats : List String) (col : RGBA) :
    painted col (cats.flatMap (drawCategory lines rings))
      = cats.flatMap (specCalls lines rings) := by
  induction cats generalizing col with
  | nil => rfl
  | cons c t ih =>
    rw [List.flatMap_cons, List.flatMap_cons, painted_drawCategory, ih]

theorem painted_composite {α : Type} (lines rings : String → Option (Path α)) (col : RGBA) :
    painted col (composite lines rings) = catOrder.flatMap (specCalls lines rings) :=
  painted_flatMap lines rings catOrder col

/-- C12: whatever the accumulators, what is painted after the background rectangle
is, for the categories in the order water, route_pedestrian, route_residential,
route_secondary, route_primary, route_transit, park, building, the stroked line path
if the category has one, then the ring path if it has one, and nothing for a
category that has neither. The calls of building come last, after those of
route_primary. -/
theorem composite_order {α : Type} (acc : Acc α) (col : RGBA) :
    painted col (canvasOps acc)
      = (⟨235, 227, 205, 255⟩, Drawn.rectangle dimension dimension)
        :: painted ⟨235, 227, 205, 255⟩ (composite acc.lines acc.rings)
    ∧ painted col (composite acc.lines acc.rings)
      = specCalls acc.lines acc.rings "water"
        ++ specCalls acc.lines acc.rings "route_pedestrian"
        ++ specCalls acc.lines acc.rings "route_residential"
        ++ specCalls acc.lines acc.rings "route_secondary"
        ++ specCalls acc.lines acc.rings "route_primary"
        ++ specCalls acc.lines acc.rings "route_transit"
        ++ specCalls acc.lines acc.rings "park"
        ++ specCalls acc.lines acc.rings "building"
    ∧ (∀ cat, acc.lines cat = none → acc.rings cat = none →
        specCalls acc.lines acc.rings cat = []) := by
  refine ⟨rfl, ?_, ?_⟩
  · rw [painted_composite]
    simp [catOrder, List.flatMap_cons]
  · intro cat hl hr
    simp [specCalls, hl, hr]

/-- Witness of `composite_order`: after a building polygon and a primary road
nothing is painted for `park`. -/
theorem composite_order_witness :
    specCalls
      (drawFeatures ([⟨some (tagsOf [("amenity", "cafe")]), .polygon [[(0, 0), (4, 0), (0, 4)]]⟩,
        ⟨some (tagsOf [("highway", "primary")]), .lineString [(0, 0), (1, 1)]⟩] :
        List (Feature Int))).lines
      (drawFeatures ([⟨some (tagsOf [("amenity", "cafe")]), .polygon [[(0, 0), (4, 0), (0, 4)]]⟩,
        ⟨some (tagsOf [("highway", "primary")]), .lineString [(0, 0), (1, 1)]⟩] :
        List (Feature Int))).rings
      "park" = [] :=
  (composite_order
    (drawFeatures ([⟨some (tagsOf [("amenity", "cafe")]), .polygon [[(0, 0), (4, 0), (0, 4)]]⟩,
      ⟨some (tagsOf [("highway", "primary")]), .lineString [(0, 0), (1, 1)]⟩] :
      List (Feature Int)))
    ⟨0, 0, 0, 0⟩).2.2 "park" (by decide) (by decide)

/-! ### The accumulators as lists of sub-paths -/

theorem ofParts_getD {α : Type} (ps : List (Path α)) : (ofParts ps).getD [] = ps.flatten := by
  cases ps <;> rfl

theorem ofParts_append_singleton {α : Type} (ps : List (Path α)) (p : Path α) :
    ofParts (ps ++ [p]) = some (ps.flatten ++ p) := by
  cases ps <;> simp [ofParts]

theorem ofParts_append_of_ne_nil {α : Type} (ps qs : List (Path α)) (h : qs ≠ []) :
    ofParts (ps ++ qs) = some (ps.flatten ++ qs.flatten) := by
  cases ps with
  | nil =>
    cases qs with
    | nil => exact absurd rfl h
    | cons q t => simp [ofParts]
  | cons p t => simp [ofParts]

theorem appendTo_ofParts {α : Type} (m : String → Option (Path α)) (c : String)
    (p : Path α) (ps : List (Path α)) (h : m c = ofParts ps) :
    appendTo m c p c = ofParts (ps ++ [p]) := by
  rw [appendTo_same, h, ofParts_getD, ofParts_append_singleton]

theorem addRings_ofParts {α : Type} (m : String → Option (Path α)) (c : String)
    (g : List (List (Point α))) (ps : List (Path α)) (h : m c = ofParts ps) :
    addRings m c g c = ofParts (ps ++ specRingPaths g) := by
  obtain ⟨_, he, hne⟩ := addRings_eq m c g
  by_cases hg : specRingPaths g = []
  · rw [he hg, hg, List.append_nil, h]
  · rw [hne hg, h, ofParts_getD, ofParts_append_of_ne_nil _ _ hg]

/-- One round of the feature loop appends the sub-paths of the feature to the
accumulators of every category. -/
theorem drawFeature_parts {α : Type} (acc : Acc α) (f : Feature α)
    (L R : String → List (Path α))
    (hL : ∀ c, acc.lines c = ofParts (L c)) (hR : ∀ c, acc.rings c = ofParts (R c)) (c : String) :
    (drawFeature acc f).lines c = ofParts (L c ++ lineParts f c)
    ∧ (drawFeature acc f).rings c = ofParts (R c ++ ringParts f c) := by
  obtain ⟨tags, geometry⟩ := f
  cases tags with
  | none => simp [drawFeature, lineParts, ringParts, hL, hR]
  | some t =>
    cases hcl : classify t with
    | none => simp [drawFeature, lineParts, ringParts, hcl, hL, hR]
    | some cat =>
      by_cases hc : cat = c
      · subst hc
        cases geometry with
        | point p => simp [drawFeature, lineParts, ringParts, hcl, assemble, hL, hR]
        | other k => simp [drawFeature, lineParts, ringParts, hcl, assemble, hL, hR]
        | lineString g =>
          by_cases hg : 1 < g.length
          · simp only [drawFeature, lineParts, ringParts, hcl, assemble, hg, if_true,
              List.append_nil]
            exact ⟨appendTo_ofParts _ _ _ _ (hL cat), hR cat⟩
          · simp [drawFeature, lineParts, ringParts, hcl, assemble, hg, hL, hR]
        | polygon g =>
          simp only [drawFeature, lineParts, ringParts, hcl, assemble, if_true,
            List.append_nil]
          exact ⟨hL cat, addRings_ofParts _ _ _ _ (hR cat)⟩
        | multiPolygon g =>
          simp only [drawFeature, lineParts, ringParts, hcl, assemble, if_true,
            List.append_nil, addPolygons_eq_addRings]
          exact ⟨hL cat, addRings_ofParts _ _ _ _ (hR cat)⟩
      · have hne : ¬ (some cat = some c) := fun h => hc (Option.some.inj h)
        have hc' : c ≠ cat := fun h => hc h.symm
        cases geometry with
        | point p => simp [drawFeature, lineParts, ringParts, hcl, assemble, hL, hR, hne]
        | other k => simp [drawFeature, lineParts, ringParts, hcl, assemble, hL, hR, hne]
        | lineString g =>
          by_cases hg : 1 < g.length
          · simp only [drawFeature, lineParts, ringParts, hcl, assemble, hg, if_true,
              List.append_nil, hne, if_false]
            exact ⟨(appendTo_other _ _ _ hc').trans (hL c), hR c⟩
          · simp [drawFeature, lineParts, ringParts, hcl, assemble, hg, hL, hR, hne]
        | polygon g =>
          simp only [drawFeature, lineParts, ringParts, hcl, assemble, if_false, hne,
            List.append_nil]
          exact ⟨hL c, ((addRings_eq _ _ _).1 c hc').trans (hR c)⟩
        | multiPolygon g =>
          simp only [drawFeature, lineParts, ringParts, hcl, assemble, if_false, hne,
            List.append_nil, addPolygons_eq_addRings]
          exact ⟨hL c, ((addRings_eq _ _ _).1 c hc').trans (hR c)⟩

theorem foldl_drawFeature_parts {α : Type} (fs : List (Feature α)) (acc : Acc α)
    (L R : String → List (Path α))
    (hL : ∀ c, acc.lines c = ofParts (L c)) (hR : ∀ c, acc.rings c = ofParts (R c)) (c : String) :
    (fs.foldl drawFeature acc).lines c = ofParts (L c ++ fs.flatMap fun f => lineParts f c)
    ∧ (fs.foldl drawFeature acc).rings c
        = ofParts (R c ++ fs.flatMap fun f => ringParts f c) := by
  induction fs generalizing acc L R with
  | nil => simp [hL, hR]
  | cons f t ih =>
    have h := ih (drawFeature acc f) (fun k => L k ++ lineParts f k)
      (fun k => R k ++ ringParts f k)
      (fun k => (drawFeature_parts acc f L R hL hR k).1)
      (fun k => (drawFeature_parts acc f L R hL hR k).2)
    simpa [List.flatMap_cons, List.append_assoc] using h

/-- The accumulators after the feature loop hold, for each category, the sub-paths
of the features in feature order. -/
theorem drawFeatures_parts {α : Type} (fs : List (Feature α)) (c : String) :
    (drawFeatures fs).lines c = ofParts (fs.flatMap fun f => lineParts f c)
    ∧ (drawFeatures fs).rings c = ofParts (fs.flatMap fun f => ringParts f c) := by
  have h := foldl_drawFeature_parts fs Acc.empty (fun _ => []) (fun _ => [])
    (fun _ => rfl) (fun _ => rfl) c
  simpa [drawFeatures] using h

/-! ### Sub-paths -/

theorem moveToCount_cons_eq_zero {α : Type} {cmd : PathCmd α} {t : Path α}
    (h : moveToCount (cmd :: t) = 0) :
    moveToCount t = 0 ∧ cutAtMoves (cmd :: t) = (cmd :: (cutAtMoves t).1, (cutAtMoves t).2) := by
  cases cmd with
  | moveTo x y => simp [moveToCount] at h
  | lineTo x y =>
    refine ⟨?_, rfl⟩
    simpa [moveToCount] using h
  | close =>
    refine ⟨?_, rfl⟩
    simpa [moveToCount] using h

theorem cutAtMoves_append_of_noMove {α : Type} (t q : Path α) (h : moveToCount t = 0) :
    cutAtMoves (t ++ q) = (t ++ (cutAtMoves q).1, (cutAtMoves q).2) := by
  induction t with
  | nil => rfl
  | cons cmd rest ih =>
    obtain ⟨h1, _⟩ := moveToCount_cons_eq_zero h
    have ih' := ih h1
    cases cmd with
    | moveTo x y => simp [moveToCount] at h
    | lineTo x y =>
      show cutAtMoves (PathCmd.lineTo x y :: (rest ++ q)) = _
      simp only [cutAtMoves, ih', List.cons_append]
    | close =>
      show cutAtMoves (PathCmd.close :: (rest ++ q)) = _
      simp only [cutAtMoves, ih', List.cons_append]

theorem cutAtMoves_subPath_append {α : Type} (p q : Path α) (hp : IsSubPath p)
    (hq : (cutAtMoves q).1 = []) :
    cutAtMoves (p ++ q) = ([], p :: (cutAtMoves q).2) := by
  obtain ⟨x, y, t, rfl, ht⟩ := hp
  show cutAtMoves (PathCmd.moveTo x y :: (t ++ q)) = _
  simp only [cutAtMoves, cutAtMoves_append_of_noMove t q ht, hq, List.append_nil]

theorem cutAtMoves_flatten {α : Type} (ps : List (Path α)) (h : ∀ p ∈ ps, IsSubPath p) :
    cutAtMoves ps.flatten = ([], ps) := by
  induction ps with
  | nil => rfl
  | cons p t ih =>
    have iht := ih (fun q hq => h q (List.mem_cons_of_mem _ hq))
    rw [List.flatten_cons,
      cutAtMoves_subPath_append p t.flatten (h p (List.mem_cons_self _ _)) (by rw [iht]), iht]

/-- Cutting the concatenation of well-formed sub-paths gives them back. -/
theorem subPaths_flatten {α : Type} (ps : List (Path α)) (h : ∀ p ∈ ps, IsSubPath p) :
    subPaths ps.flatten = ps := by
  simp [subPaths, cutAtMoves_flatten ps h]

theorem subPathsOf_ofParts {α : Type} (ps : List (Path α)) (h : ∀ p ∈ ps, IsSubPath p) :
    subPathsOf (ofParts ps) = ps := by
  rw [subPathsOf, ofParts_getD, subPaths_flatten ps h]

theorem isSubPath_vertexPath {α : Type} {g : List (Point α)} (hg : g ≠ []) :
    IsSubPath (vertexPath g) := by
  cases g with
  | nil => exact absurd rfl hg
  | cons p rest => exact ⟨p.1, p.2, _, rfl, moveToCount_map (p :: rest)⟩

theorem isSubPath_ringPath {α : Type} {g : List (Point α)} (hg : g ≠ []) :
    IsSubPath (ringPath g) := by
  cases g with
  | nil => exact absurd rfl hg
  | cons p rest =>
    refine ⟨p.1, p.2, ((p :: rest).map fun q => PathCmd.lineTo q.1 q.2) ++ [PathCmd.close],
      by simp [ringPath, vertexPath], ?_⟩
    have h := moveToCount_map (p :: rest)
    simp only [moveToCount, List.countP_append] at h ⊢
    rw [h]
    rfl

theorem isSubPath_of_mem_specRingPaths {α : Type} (g : List (List (Point α))) :
    ∀ p ∈ specRingPaths g, IsSubPath p := by
  intro p hp
  simp only [specRingPaths, List.mem_map, List.mem_filter] at hp
  obtain ⟨ring, ⟨_, hne⟩, rfl⟩ := hp
  cases ring with
  | nil => simp at hne
  | cons q rest => exact isSubPath_ringPath (List.cons_ne_nil q rest)

theorem isSubPath_of_mem_lineParts {α : Type} (f : Feature α) (c : String) :
    ∀ p ∈ lineParts f c, IsSubPath p := by
  intro p hp
  obtain ⟨tags, geometry⟩ := f
  cases tags with
  | none => simp [lineParts] at hp
  | some t =>
    by_cases hc : classify t = some c
    · cases geometry with
      | lineString g =>
        by_cases hg : 1 < g.length
        · simp only [lineParts, hc, if_true, hg, List.mem_singleton] at hp
          subst hp
          apply isSubPath_vertexPath
          intro h0
          rw [h0] at hg
          simp at hg
        · simp [lineParts, hc, hg] at hp
      | point q => simp [lineParts, hc] at hp
      | polygon g => simp [lineParts, hc] at hp
      | multiPolygon g => simp [lineParts, hc] at hp
      | other k => simp [lineParts, hc] at hp
    · simp [lineParts, hc] at hp

theorem isSubPath_of_mem_ringParts {α : Type} (f : Feature α) (c : String) :
    ∀ p ∈ ringParts f c, IsSubPath p := by
  intro p hp
  obtain ⟨tags, geometry⟩ := f
  cases tags with
  | none => simp [ringParts] at hp
  | some t =>
    by_cases hc : classify t = some c
    · cases geometry with
      | lineString g => simp [ringParts, hc] at hp
      | point q => simp [ringParts, hc] at hp
      | polygon g =>
        simp only [ringParts, hc, if_true] at hp
        exact isSubPath_of_mem_specRingPaths g p hp
      | multiPolygon g =>
        simp only [ringParts, hc, if_true] at hp
        exact isSubPath_of_mem_specRingPaths g.flatten p hp
      | other k => simp [ringParts, hc] at hp
    · simp [ringParts, hc] at hp

/-- The sub-paths held by the accumulators after the feature loop are those of the
features, in feature order. -/
theorem subPathsOf_drawFeatures {α : Type} (fs : List (Feature α)) (c : String) :
    subPathsOf ((drawFeatures fs).lines c) = fs.flatMap (fun f => lineParts f c)
    ∧ subPathsOf ((drawFeatures fs).rings c) = fs.flatMap (fun f => ringParts f c) := by
  obtain ⟨hl, hr⟩ := drawFeatures_parts fs c
  rw [hl, hr]
  constructor
  · apply subPathsOf_ofParts
    intro p hp
    obtain ⟨f, _, hf⟩ := List.mem_flatMap.mp hp
    exact isSubPath_of_mem_lineParts f c p hf
  · apply subPathsOf_ofParts
    intro p hp
    obtain ⟨f, _, hf⟩ := List.mem_flatMap.mp hp
    exact isSubPath_of_mem_ringParts f c p hf

/-! ### Untagged features -/

/-- C15: a feature whose `tags` type assertion fails (no `tags` entry, or one that is
not a `map[string]string`) is skipped whatever its geometry: the loop body returns
the state it was given, lines, rings and reports included, and the loop goes on with
the next feature as if the feature were not there. -/
theorem untagged_feature_skipped {α : Type} (acc : Acc α) (geometry : Geometry α)
    (pre post : List (Feature α)) :
    drawFeature acc ⟨none, geometry⟩ = acc
    ∧ (drawFeature acc ⟨none, geometry⟩).lines = acc.lines
    ∧ (drawFeature acc ⟨none, geometry⟩).rings = acc.rings
    ∧ (drawFeature acc ⟨none, geometry⟩).reports = acc.reports
    ∧ (⟨none, geometry⟩ :: post).foldl drawFeature acc = post.foldl drawFeature acc
    ∧ drawFeatures (pre ++ ⟨none, geometry⟩ :: post) = drawFeatures (pre ++ post) := by
  refine ⟨rfl, rfl, rfl, rfl, rfl, ?_⟩
  simp only [drawFeatures, List.foldl_append, List.foldl_cons]
  rfl

/-! ### Order of the features -/

theorem ofParts_isSome_of_perm {α : Type} {ps qs : List (Path α)} (h : ps.Perm qs) :
    (ofParts ps).isSome = (ofParts qs).isSome := by
  cases ps with
  | nil =>
    have : qs = [] := List.Perm.nil_eq h |>.symm
    rw [this]
  | cons p t =>
    cases qs with
    | nil => exact absurd (List.Perm.eq_nil h) (List.cons_ne_nil _ _)
    | cons q u => rfl

theorem samePaint_specCalls {α : Type} (l r l' r' : String → Option (Path α)) (c : String)
    (hl : (l c).isSome = (l' c).isSome)
    (hlp : (subPathsOf (l c)).Perm (subPathsOf (l' c)))
    (hr : (r c).isSome = (r' c).isSome)
    (hrp : (subPathsOf (r c)).Perm (subPathsOf (r' c))) :
    List.Forall₂ SamePaint (specCalls l r c) (specCalls l' r' c) := by
  unfold specCalls
  cases h1 : l c <;> cases h2 : l' c <;> cases h3 : r c <;> cases h4 : r' c <;>
    simp_all [SamePaint, subPathsOf]

theorem samePaint_flatMap {α : Type} (l r l' r' : String → Option (Path α))
    (h : ∀ c, List.Forall₂ SamePaint (specCalls l r c) (specCalls l' r' c))
    (cats : List String) :
    List.Forall₂ SamePaint (cats.flatMap (specCalls l r)) (cats.flatMap (specCalls l' r')) := by
  induction cats with
  | nil => exact List.Forall₂.nil
  | cons c t ih =>
    rw [List.flatMap_cons, List.flatMap_cons]
    exact List.rel_append (h c) ih

/-- C16: merge order-independence. For a list of features and any permutation of it,
the line accumulator and the ring accumulator of each category hold the same
sub-paths, as multisets, the same categories are present, and what is painted
differs only in the order of the sub-paths inside each painted path. -/
theorem merge_order_independent {α : Type} (fs fs' : List (Feature α)) (h : fs.Perm fs')
    (c : String) (col : RGBA) :
    (subPathsOf ((drawFeatures fs).lines c)).Perm (subPathsOf ((drawFeatures fs').lines c))
    ∧ (subPathsOf ((drawFeatures fs).rings c)).Perm (subPathsOf ((drawFeatures fs').rings c))
    ∧ ((drawFeatures fs).lines c).isSome = ((drawFeatures fs').lines c).isSome
    ∧ ((drawFeatures fs).rings c).isSome = ((drawFeatures fs').rings c).isSome
    ∧ List.Forall₂ SamePaint (painted col (canvasOps (drawFeatures fs)))
        (painted col (canvasOps (drawFeatures fs'))) := by
  have key : ∀ k,
      (subPathsOf ((drawFeatures fs).lines k)).Perm (subPathsOf ((drawFeatures fs').lines k))
      ∧ (subPathsOf ((drawFeatures fs).rings k)).Perm
          (subPathsOf ((drawFeatures fs').rings k))
      ∧ ((drawFeatures fs).lines k).isSome = ((drawFeatures fs').lines k).isSome
      ∧ ((drawFeatures fs).rings k).isSome = ((drawFeatures fs').rings k).isSome := by
    intro k
    have hl : (fs.flatMap fun f => lineParts f k).Perm (fs'.flatMap fun f => lineParts f k) :=
      List.Perm.flatMap_right _ h
    have hr : (fs.flatMap fun f => ringParts f k).Perm (fs'.flatMap fun f => ringParts f k) :=
      List.Perm.flatMap_right _ h
    refine ⟨?_, ?_, ?_, ?_⟩
    · rw [(subPathsOf_drawFeatures fs k).1, (subPathsOf_drawFeatures fs' k).1]
      exact hl
    · rw [(subPathsOf_drawFeatures fs k).2, (subPathsOf_drawFeatures fs' k).2]
      exact hr
    · rw [(drawFeatures_parts fs k).1, (drawFeatures_parts fs' k).1]
      exact ofParts_isSome_of_perm hl
    · rw [(drawFeatures_parts fs k).2, (drawFeatures_parts fs' k).2]
      exact ofParts_isSome_of_perm hr
  obtain ⟨h1, h2, h3, h4⟩ := key c
  refine ⟨h1, h2, h3, h4, ?_⟩
  have hp : ∀ acc : Acc α, painted col (canvasOps acc)
      = (⟨235, 227, 205, 255⟩, Drawn.rectangle dimension dimension)
        :: catOrder.flatMap (specCalls acc.lines acc.rings) := by
    intro acc
    rw [← painted_composite acc.lines acc.rings ⟨235, 227, 205, 255⟩]
    rfl
  rw [hp, hp]
  refine List.Forall₂.cons ⟨rfl, rfl, rfl⟩ ?_
  apply samePaint_flatMap
  intro k
  obtain ⟨k1, k2, k3, k4⟩ := key k
  exact samePaint_specCalls _ _ _ _ k k3 k1 k4 k2

/-- Witness of `merge_order_independent`: two primary roads, in both orders. -/
theorem merge_order_independent_witness :
    (subPathsOf ((drawFeatures
        ([⟨some (tagsOf [("highway", "primary")]), .lineString [(0, 0), (1, 1)]⟩,
          ⟨some (tagsOf [("highway", "primary")]), .lineString [(2, 2), (3, 3)]⟩] :
          List (Feature Int))).lines "route_primary")).Perm
      (subPathsOf ((drawFeatures
        ([⟨some (tagsOf [("highway", "primary")]), .lineString [(2, 2), (3, 3)]⟩,
          ⟨some (tagsOf [("highway", "primary")]), .lineString [(0, 0), (1, 1)]⟩] :
          List (Feature Int))).lines "route_primary")) :=
  (merge_order_independent
    ([⟨some (tagsOf [("highway", "primary")]), .lineString [(0, 0), (1, 1)]⟩,
      ⟨some (tagsOf [("highway", "primary")]), .lineString [(2, 2), (3, 3)]⟩] :
      List (Feature Int))
    [⟨some (tagsOf [("highway", "primary")]), .lineString [(2, 2), (3, 3)]⟩,
     ⟨some (tagsOf [("highway", "primary")]), .lineString [(0, 0), (1, 1)]⟩]
    (List.Perm.swap _ _ _) "route_primary" ⟨0, 0, 0, 0⟩).1

/-! ### The closed set of categories -/

theorem classify_mem_catOrder {tags : Tags} {c : String} (h : classify tags = some c) :
    c ∈ catOrder := by
  unfold classify at h
  cases hh : tags "highway" with
  | some hw =>
    simp only [hh] at h
    by_cases h1 : hw = "primary"
    · subst h1
      have : c = "route_primary" := by
        have h' : some ("route_" ++ "primary") = some c := by simpa using h
        exact (Option.some.inj h').symm
      subst this
      decide
    by_cases h2 : hw = "secondary"
    · subst h2
      have : c = "route_secondary" := by
        have h' : some ("route_" ++ "secondary") = some c := by simpa using h
        exact (Option.some.inj h').symm
      subst this
      decide
    by_cases h3 : hw = "unclassified"
    · subst h3
      have : c = "route_residential" := by
        have h' : some ("route_" ++ "residential") = some c := by simpa using h
        exact (Option.some.inj h').symm
      subst this
      decide
    by_cases h4 : hw = "residential"
    · subst h4
      have : c = "route_residential" := by
        have h' : some ("route_" ++ "residential") = some c := by simpa using h
        exact (Option.some.inj h').symm
      subst this
      decide
    by_cases h5 : hw = "pedestrian"
    · subst h5
      have : c = "route_pedestrian" := by
        have h' : some ("route_" ++ "pedestrian") = some c := by simpa using h
        exact (Option.some.inj h').symm
      subst this
      decide
    simp [h1, h2, h3, h4, h5] at h
  | none =>
    simp only [hh] at h
    by_cases hm : tags "man_made" = some "bridge"
    · simp only [hm, if_true] at h
      cases h; decide
    simp only [hm, if_false] at h
    by_cases hn : (tags "natural").isSome
    · simp only [hn, if_true] at h
      cases h; decide
    simp only [hn] at h
    by_cases hr : tags "railway" = some "rail"
    · simp only [hr, if_true] at h
      cases h; decide
    simp only [hr, if_false] at h
    cases hl : tags "leisure" with
    | some l =>
      simp only [hl] at h
      split_ifs at h
      all_goals (cases h; decide)
    | none =>
      simp only [hl] at h
      split_ifs at h
      all_goals (cases h; decide)

theorem lineParts_ne_nil {α : Type} {f : Feature α} {c : String} (h : lineParts f c ≠ []) :
    ∃ tags, f.tags = some tags ∧ classify tags = some c := by
  obtain ⟨tags, geometry⟩ := f
  cases tags with
  | none => simp [lineParts] at h
  | some t =>
    by_cases hc : classify t = some c
    · exact ⟨t, rfl, hc⟩
    · simp [lineParts, hc] at h

theorem ringParts_ne_nil {α : Type} {f : Feature α} {c : String} (h : ringParts f c ≠ []) :
    ∃ tags, f.tags = some tags ∧ classify tags = some c := by
  obtain ⟨tags, geometry⟩ := f
  cases tags with
  | none => simp [ringParts] at h
  | some t =>
    by_cases hc : classify t = some c
    · exact ⟨t, rfl, hc⟩
    · simp [ringParts, hc] at h

theorem ofParts_flatMap_isSome {α β : Type} (fs : List β) (g : β → List (Path α))
    (h : (ofParts (fs.flatMap g)).isSome) : ∃ f ∈ fs, g f ≠ [] := by
  cases hps : fs.flatMap g with
  | nil => simp [hps, ofParts] at h
  | cons p t =>
    have hp : p ∈ fs.flatMap g := by simp [hps]
    obtain ⟨f, hf, hpf⟩ := List.mem_flatMap.mp hp
    exact ⟨f, hf, List.ne_nil_of_mem hpf⟩

/-- An accumulator entry exists only under a category the classifier assigned to
one of the features. -/
theorem accumulator_key_classified {α : Type} (fs : List (Feature α)) (c : String)
    (h : ((drawFeatures fs).lines c).isSome ∨ ((drawFeatures fs).rings c).isSome) :
    ∃ f ∈ fs, ∃ tags, f.tags = some tags ∧ classify tags = some c := by
  rcases h with h | h
  · rw [(drawFeatures_parts fs c).1] at h
    obtain ⟨f, hf, hne⟩ := ofParts_flatMap_isSome fs _ h
    exact ⟨f, hf, lineParts_ne_nil hne⟩
  · rw [(drawFeatures_parts fs c).2] at h
    obtain ⟨f, hf, hne⟩ := ofParts_flatMap_isSome fs _ h
    exact ⟨f, hf, ringParts_ne_nil hne⟩

theorem painted_split {α : Type} (lines rings : String → Option (Path α)) (col : RGBA)
    {c : String} {pre post : List String} (h : catOrder = pre ++ c :: post) :
    painted col (composite lines rings)
      = pre.flatMap (specCalls lines rings) ++ specCalls lines rings c
        ++ post.flatMap (specCalls lines rings) := by
  rw [painted_composite, h]
  simp [List.flatMap_append, List.flatMap_cons]

/-- C17: every category the classifier assigns is one of the eight of `catOrder`; the
eight are distinct, and the colour table holds exactly them. So an accumulator
built by the feature loop sits under a category that occurs exactly once in the draw
order, and what is painted is the calls of the categories before it, then its own
calls, made with its own colour of the table, then the calls of the categories
after it. -/
theorem categories_closed {α : Type} (fs : List (Feature α)) (c : String) (col : RGBA) :
    (∀ tags k, classify tags = some k → k ∈ catOrder)
    ∧ catOrder.Nodup ∧ catOrder.length = 8
    ∧ (categoriesTable.map Prod.fst).Perm catOrder
    ∧ (∀ k ∈ catOrder, categoriesTable.lookup k = some (categories k))
    ∧ (((drawFeatures fs).lines c).isSome ∨ ((drawFeatures fs).rings c).isSome →
        c ∈ catOrder ∧ catOrder.count c = 1
        ∧ ∃ pre post, catOrder = pre ++ c :: post ∧ c ∉ pre ∧ c ∉ post
          ∧ painted col (composite (drawFeatures fs).lines (drawFeatures fs).rings)
            = pre.flatMap (specCalls (drawFeatures fs).lines (drawFeatures fs).rings)
              ++ specCalls (drawFeatures fs).lines (drawFeatures fs).rings c
              ++ post.flatMap (specCalls (drawFeatures fs).lines (drawFeatures fs).rings))
    ∧ (∀ p, (drawFeatures fs).lines c = some p →
        (categories c, Drawn.stroke p (strokeWidth c) Capper.round Joiner.round)
          ∈ specCalls (drawFeatures fs).lines (drawFeatures fs).rings c)
    ∧ (∀ p, (drawFeatures fs).rings c = some p →
        (categories c, Drawn.plain p)
          ∈ specCalls (drawFeatures fs).lines (drawFeatures fs).rings c) := by
  have hnd : catOrder.Nodup := by decide
  refine ⟨fun _ _ h => classify_mem_catOrder h, hnd, rfl, by decide, by decide, ?_, ?_, ?_⟩
  · intro h
    obtain ⟨f, _, tags, _, hc⟩ := accumulator_key_classified fs c h
    have hmem : c ∈ catOrder := classify_mem_catOrder hc
    have hcount : catOrder.count c = 1 := List.count_eq_one_of_mem hnd hmem
    refine ⟨hmem, hcount, ?_⟩
    obtain ⟨pre, post, hsplit⟩ := List.append_of_mem hmem
    have hnd' : (pre ++ c :: post).Nodup := hsplit ▸ hnd
    have hpre : c ∉ pre := by
      intro hin
      have := (List.nodup_append.mp hnd').2.2
      exact this hin (List.mem_cons_self _ _)
    have hpost : c ∉ post :=
      (List.nodup_cons.mp (List.nodup_append.mp hnd').2.1).1
    exact ⟨pre, post, hsplit, hpre, hpost, painted_split _ _ col hsplit⟩
  · intro p hp
    simp [specCalls, hp]
  · intro p hp
    simp [specCalls, hp]

/-- Witness of `categories_closed`: a building polygon and a primary road. -/
theorem categories_closed_witness :
    "building" ∈ catOrder ∧ catOrder.count "building" = 1 :=
  have h := (categories_closed
    ([⟨some (tagsOf [("amenity", "cafe")]), .polygon [[(0, 0), (4, 0), (0, 4)]]⟩,
      ⟨some (tagsOf [("highway", "primary")]), .lineString [(0, 0), (1, 1)]⟩] :
      List (Feature Int))
    "building" ⟨0, 0, 0, 0⟩).2.2.2.2.2.1 (Or.inr (by decide))
  ⟨h.1, h.2.1⟩

/-! ### Stroke widths -/

/-- C18: the stroke width is the base width 0.00015 divided by 1.5 for
route_residential, multiplied by 1.5 for route_primary, divided by 2.5 for
route_pedestrian, divided by 8 for route_transit, and unchanged for every other
category, route_secondary, water, park and building among them. A round of the
category loop paints the line accumulator stroked with that width, round caps and
round joins, and the ring accumulator as it is, never stroked. -/
theorem stroke_widths {α : Type} (lines rings : String → Option (Path α)) (cat : String)
    (col : RGBA) :
    strokeWidth "route_residential" = 0.00015 / 1.5
    ∧ strokeWidth "route_primary" = 0.00015 * 1.5
    ∧ strokeWidth "route_pedestrian" = 0.00015 / 2.5
    ∧ strokeWidth "route_transit" = 0.00015 / 8
    ∧ strokeWidth "route_secondary" = 0.00015
    ∧ strokeWidth "water" = 0.00015
    ∧ strokeWidth "park" = 0.00015
    ∧ strokeWidth "building" = 0.00015
    ∧ (cat ≠ "route_residential" → cat ≠ "route_primary" → cat ≠ "route_pedestrian" →
        cat ≠ "route_transit" → strokeWidth cat = 0.00015)
    ∧ painted col (drawCategory lines rings cat)
      = ((lines cat).toList.map fun p =>
          (categories cat, Drawn.stroke p (strokeWidth cat) Capper.round Joiner.round))
        ++ ((rings cat).toList.map fun p => (categories cat, Drawn.plain p)) := by
  refine ⟨?_, ?_, ?_, ?_, ?_, ?_, ?_, ?_, ?_, ?_⟩
  · simp +decide only [strokeWidth]
    norm_num
  · simp +decide only [strokeWidth]
    norm_num
  · simp +decide only [strokeWidth]
    norm_num
  · simp +decide only [strokeWidth]
    norm_num
  · simp +decide only [strokeWidth]
    norm_num
  · simp +decide only [strokeWidth]
    norm_num
  · simp +decide only [strokeWidth]
    norm_num
  · simp +decide only [strokeWidth]
    norm_num
  · intro h1 h2 h3 h4
    simp [strokeWidth, h1, h2, h3, h4]
  · have h := painted_drawCategory lines rings cat col []
    simpa [specCalls, painted] using h

/-- Witness of `stroke_widths`: the category `park`. -/
theorem stroke_widths_witness : strokeWidth "park" = 0.00015 :=
  (stroke_widths (fun _ => none : String → Option (Path Int)) (fun _ => none) "park"
    ⟨0, 0, 0, 0⟩).2.2.2.2.2.2.2.2.1
    (by decide) (by decide) (by decide) (by decide)

/-! ### Fetch and view -/

/-- C13: for bounds with west < east and south < north the view set by `draw` is the
affine map `(lon, lat) ↦ ((lon - west) * dimension/(east - west),
(lat - south) * dimension/(north - south))`: its scales are `dimension/(east - west)`
and `dimension/(north - south)`, it has no shear, it sends (west, south) to (0, 0)
and (east, north) to (dimension, dimension). -/
theorem view_transform (t : Tile) (hx : t.West < t.East) (hy : t.South < t.North) :
    (∀ lon lat : ℝ, (view t).Dot (lon, lat)
        = ((lon - t.West) * (dimension : ℝ) / (t.East - t.West),
           (lat - t.South) * (dimension : ℝ) / (t.North - t.South)))
    ∧ (view t).m00 = (dimension : ℝ) / (t.East - t.West)
    ∧ (view t).m11 = (dimension : ℝ) / (t.North - t.South)
    ∧ (view t).m01 = 0 ∧ (view t).m10 = 0
    ∧ (view t).Dot (t.West, t.South) = (0, 0)
    ∧ (view t).Dot (t.East, t.North) = ((dimension : ℝ), (dimension : ℝ)) := by
  have hX : t.East - t.West ≠ 0 := ne_of_gt (sub_pos.mpr hx)
  have hY : t.North - t.South ≠ 0 := ne_of_gt (sub_pos.mpr hy)
  have hdot : ∀ lon lat : ℝ, (view t).Dot (lon, lat)
      = ((lon - t.West) * (dimension : ℝ) / (t.East - t.West),
         (lat - t.South) * (dimension : ℝ) / (t.North - t.South)) := by
    intro lon lat
    simp only [view, Matrix.Dot, Matrix.Translate, Matrix.Scale, Matrix.Mul,
      Matrix.Identity]
    refine Prod.ext ?_ ?_
    · simp only
      ring
    · simp only
      ring
  refine ⟨hdot, ?_, ?_, ?_, ?_, ?_, ?_⟩
  · simp [view, Matrix.Translate, Matrix.Scale, Matrix.Mul, Matrix.Identity]
  · simp [view, Matrix.Translate, Matrix.Scale, Matrix.Mul, Matrix.Identity]
  · simp [view, Matrix.Translate, Matrix.Scale, Matrix.Mul, Matrix.Identity]
  · simp [view, Matrix.Translate, Matrix.Scale, Matrix.Mul, Matrix.Identity]
  · rw [hdot]
    simp
  · rw [hdot]
    refine Prod.ext ?_ ?_
    · simp only
      field_simp
    · simp only
      field_simp

/-- Witness of `view_transform`: the tile of the `TESTING` branch with its bounds
stored. -/
theorem view_transform_witness :
    testTile.storeBounds.West < testTile.storeBounds.East
    ∧ (view testTile.storeBounds).Dot (testTile.storeBounds.West, testTile.storeBounds.South)
      = (0, 0) :=
  have hx : testTile.storeBounds.West < testTile.storeBounds.East :=
    tileToLon_strictMono 14 (by decide : (8414 : Int) < 8414 + 1)
  have hy : testTile.storeBounds.South < testTile.storeBounds.North :=
    tileToLat_strictAnti 14 (by decide : (5384 : Int) < 5384 + 1)
  ⟨hx, (view_transform testTile.storeBounds hx hy).2.2.2.2.2.1⟩

theorem halves_eq (t : Tile) :
    westHalf t = ⟨t.South, t.North, t.West, (t.West + t.East) / 2⟩
    ∧ eastHalf t = ⟨t.South, t.North, (t.West + t.East) / 2, t.East⟩ := by
  have hmid : t.West + (t.East - t.West) / 2.0 = (t.West + t.East) / 2 := by
    norm_num
    ring
  constructor <;> simp only [westHalf, eastHalf, hmid]

/-- C14, as stated, fails: when the first request fails `draw` panics (lines 148-150)
and the second request is never issued, so one request is issued, not two. -/
theorem fetch_requests_counterexample :
    testTile.storeBounds.West < testTile.storeBounds.East
    ∧ (fetchHalves (fun _ _ => (none : Option Unit)) testTile.storeBounds).1
        = [westHalf testTile.storeBounds]
    ∧ (fetchHalves (fun _ _ => (none : Option Unit)) testTile.storeBounds).1.length ≠ 2 := by
  have hx : testTile.storeBounds.West < testTile.storeBounds.East := by
    rw [testTile_stored.2.2.2.1, testTile_stored.2.2.2.2]
    exact tileToLon_strictMono 14 (by decide)
  exact ⟨hx, rfl, by simp [fetchHalves]⟩

/-- C14, amended: for bounds with west < east `draw` issues its first request for the
box (south, north, west, mid), with `mid = (west + east)/2` strictly between west and
east, and, when that request succeeds, a second and last request for
(south, north, mid, east): two requests when the first succeeds, one when it fails,
and `draw` goes on only when both succeed. Both boxes span the full latitude range;
their longitude intervals meet in the meridian `mid` only, their interiors are
disjoint, and together they cover exactly [west, east]. -/
theorem fetch_requests {ρ : Type} (fetch : Nat → OsmBounds → Option ρ) (t : Tile)
    (h : t.West < t.East) :
    westHalf t = ⟨t.South, t.North, t.West, (t.West + t.East) / 2⟩
    ∧ eastHalf t = ⟨t.South, t.North, (t.West + t.East) / 2, t.East⟩
    ∧ (∀ ams0, fetch 0 (westHalf t) = some ams0 →
        (fetchHalves fetch t).1 = [westHalf t, eastHalf t]
        ∧ (fetchHalves fetch t).1.length = 2)
    ∧ (fetch 0 (westHalf t) = none →
        (fetchHalves fetch t).1 = [westHalf t] ∧ (fetchHalves fetch t).2 = none)
    ∧ (∀ ams0 ams1, (fetchHalves fetch t).2 = some (ams0, ams1) ↔
        fetch 0 (westHalf t) = some ams0 ∧ fetch 1 (eastHalf t) = some ams1)
    ∧ t.West < (t.West + t.East) / 2 ∧ (t.West + t.East) / 2 < t.East
    ∧ Set.Icc t.West ((t.West + t.East) / 2) ∩ Set.Icc ((t.West + t.East) / 2) t.East
        = {(t.West + t.East) / 2}
    ∧ Set.Ioo t.West ((t.West + t.East) / 2) ∩ Set.Ioo ((t.West + t.East) / 2) t.East = ∅
    ∧ Set.Icc t.West ((t.West + t.East) / 2) ∪ Set.Icc ((t.West + t.East) / 2) t.East
        = Set.Icc t.West t.East := by
  have h1 : t.West < (t.West + t.East) / 2 := by linarith
  have h2 : (t.West + t.East) / 2 < t.East := by linarith
  refine ⟨(halves_eq t).1, (halves_eq t).2, ?_, ?_, ?_, h1, h2, ?_, ?_, ?_⟩
  · intro ams0 h0
    unfold fetchHalves
    rw [h0]
    cases fetch 1 (eastHalf t) <;> exact ⟨rfl, rfl⟩
  · intro h0
    unfold fetchHalves
    rw [h0]
    exact ⟨rfl, rfl⟩
  · intro ams0 ams1
    unfold fetchHalves
    cases h0 : fetch 0 (westHalf t) with
    | none => simp
    | some a =>
      cases h1' : fetch 1 (eastHalf t) with
      | none => simp
      | some b => simp
  · ext v
    simp only [Set.mem_inter_iff, Set.mem_Icc, Set.mem_singleton_iff]
    constructor
    · rintro ⟨⟨_, ha⟩, ⟨hb, _⟩⟩
      exact le_antisymm ha hb
    · rintro rfl
      exact ⟨⟨h1.le, le_refl _⟩, ⟨le_refl _, h2.le⟩⟩
  · ext v
    simp only [Set.mem_inter_iff, Set.mem_Ioo, Set.mem_empty_iff_false, iff_false]
    rintro ⟨⟨_, ha⟩, ⟨hb, _⟩⟩
    exact lt_irrefl _ (ha.trans hb)
  · exact Set.Icc_union_Icc_eq_Icc h1.le h2.le

/-- Witness of `fetch_requests`: the tile of the `TESTING` branch with its bounds
stored, and a data source that answers every request. -/
theorem fetch_requests_witness :
    testTile.storeBounds.West < testTile.storeBounds.East
    ∧ (fetchHalves (fun _ _ => some ()) testTile.storeBounds).1
        = [westHalf testTile.storeBounds, eastHalf testTile.storeBounds]
    ∧ (testTile.storeBounds.West + testTile.storeBounds.East) / 2
        < testTile.storeBounds.East :=
  have hx : testTile.storeBounds.West < testTile.storeBounds.East := by
    rw [testTile_stored.2.2.2.1, testTile_stored.2.2.2.2]
    exact tileToLon_strictMono 14 (by decide)
  have h := fetch_requests (fun _ _ => some ()) testTile.storeBounds hx
  ⟨hx, (h.2.2.1 () rfl).1, h.2.2.2.2.2.2.1⟩

/-! ### The north-west corner of a tile -/

/-- The Mercator ordinate is recovered from the latitude `atan(sinh n)`. -/
theorem log_tan_add_sec_arctan_sinh (n : ℝ) :
    Real.log (Real.tan (Real.arctan (Real.sinh n))
      + 1 / Real.cos (Real.arctan (Real.sinh n))) = n := by
  have hcos : Real.cos (Real.arctan (Real.sinh n)) = 1 / Real.cosh n := by
    rw [Real.cos_arctan, add_comm, ← Real.cosh_sq, Real.sqrt_sq (Real.cosh_pos _).le]
  rw [Real.tan_arctan, hcos, one_div_one_div, Real.sinh_add_cosh, Real.log_exp]

/-- C19: for every zoom, column and row, in particular for `0 ≤ z`, `0 ≤ x < 2^z` and
`0 < y < 2^z`, setting `Lat` and `Long` to the result of `Num2deg` on the tile
`(z, x, y)` and calling `Deg2num` returns exactly `(x, y)`. -/
theorem num2deg_deg2num (z x y : Int) : (Tile.atCorner z x y).Deg2num = (x, y) := by
  have hz : exp2 z ≠ 0 := (exp2_pos z).ne'
  have hpi : Real.pi ≠ 0 := Real.pi_pos.ne'
  have hlat : (Tile.atCorner z x y).Lat * Real.pi / 180.0
      = Real.arctan (Real.sinh (Real.pi - 2.0 * Real.pi * (y : ℝ) / exp2 z)) := by
    simp only [Tile.atCorner, Tile.Num2deg]
    rw [Real.sinh_eq]
    norm_num
    field_simp
  have hlong : (Tile.atCorner z x y).Long = (x : ℝ) / exp2 z * 360.0 - 180.0 := rfl
  have hzoom : (Tile.atCorner z x y).Z = z := rfl
  simp only [Tile.Deg2num, hlat, hlong, hzoom]
  refine Prod.ext ?_ ?_
  · simp only
    have : ((x : ℝ) / exp2 z * 360.0 - 180.0 + 180.0) / 360.0 * exp2 z = (x : ℝ) := by
      field_simp
      ring
    rw [this, Int.floor_intCast]
  · simp only
    have h1 : (1.0 : ℝ) / Real.cos (Real.arctan (Real.sinh
        (Real.pi - 2.0 * Real.pi * (y : ℝ) / exp2 z)))
        = 1 / Real.cos (Real.arctan (Real.sinh
        (Real.pi - 2.0 * Real.pi * (y : ℝ) / exp2 z))) := by norm_num
    rw [h1, log_tan_add_sec_arctan_sinh]
    have : (1.0 - (Real.pi - 2.0 * Real.pi * (y : ℝ) / exp2 z) / Real.pi) / 2.0 * exp2 z
        = (y : ℝ) := by
      field_simp
      ring
    rw [this, Int.floor_intCast]

end Tiler
